import Mathlib

/-!
Shallow embedding of sfdisk-sort-rs.

Rust `String` values are modelled as `List Char`.  The regular expressions of
the source (crate `regex`, leftmost-first match semantics with greedy
repetition) are modelled by a small backtracking matcher over sequences of
atoms; every pattern of the source is a plain sequence of literals, character
classes, greedy `+`/`*` repetitions and one optional character, so the atom
list is a direct transcription of the pattern.  `\d` and `\w` are modelled by
their ASCII sets and `\s` by the Unicode white-space set, matching the
behaviour of the source on all inputs relevant here.  Machine integers
(`usize`) are modelled as `Nat`.
-/

/-- ASCII decimal digit: models `\d` of the source patterns. -/
def isDigitRx (c : Char) : Bool := 48 ≤ c.toNat && c.toNat ≤ 57

/-- Word character: models `\w` of the source patterns (ASCII letters, digits, underscore). -/

def isWordRx (c : Char) : Bool :=
  (65 ≤ c.toNat && c.toNat ≤ 90) || (97 ≤ c.toNat && c.toNat ≤ 122) ||
  (48 ≤ c.toNat && c.toNat ≤ 57) || c.toNat = 95

/-- Models the class `[a-z]` of the source patterns. -/

def isLowerAz (c : Char) : Bool := 97 ≤ c.toNat && c.toNat ≤ 122

/-- Unicode white space: models `\s` of the source patterns and Rust
`char::is_whitespace` (code points 9-13, 32, 133, 160, 5760, 8192-8202, 8232,
8233, 8239, 8287, 12288). -/

def isSpaceRx (c : Char) : Bool :=
  (9 ≤ c.toNat && c.toNat ≤ 13) || c.toNat = 32 ||
  c.toNat = 133 || c.toNat = 160 || c.toNat = 5760 ||
  (8192 ≤ c.toNat && c.toNat ≤ 8202) ||
  c.toNat = 8232 || c.toNat = 8233 || c.toNat = 8239 || c.toNat = 8287 || c.toNat = 12288

/-- One atom of a regular expression: a literal string, a single-character
class, a greedy one-or-more repetition, a greedy zero-or-more repetition, or a
greedy optional single character. -/

inductive RAtom where
  | lit  (t : List Char)
  | cls  (p : Char → Bool)
  | plus (p : Char → Bool)
  | star (p : Char → Bool)
  | opt  (c : Char)

/-- `startsWith t s` is true when `t` is a prefix of `s`. -/

def startsWith : List Char → List Char → Bool
  | [], _ => true
  | _ :: _, [] => false
  | a :: as, b :: bs => a = b && startsWith as bs

/-- Try `f k, f (k-1), ..., f 1` and return the first success: the
backtracking order of a greedy repetition. -/

def tryLens (f : Nat → Option α) : Nat → Option α
  | 0 => none
  | k + 1 =>
    match f (k + 1) with
    | some r => some r
    | none => tryLens f k

/-- Worker of `matchSeq`, structurally recursive on a fuel argument; the fuel
is always at least the number of atoms, so the fuel-exhausted branch is never
taken when called through `matchSeq`. -/

def matchSeqF : Nat → List RAtom → List Char → Option (List (List Char) × List Char)
  | _, [], s => some ([], s)
  | 0, _ :: _, _ => none
  | n + 1, .lit t :: as, s =>
    if startsWith t s then (matchSeqF n as (s.drop t.length)).map (fun r => (t :: r.1, r.2))
    else none
  | n + 1, .cls p :: as, s =>
    match s with
    | [] => none
    | c :: s' => if p c then (matchSeqF n as s').map (fun r => ([c] :: r.1, r.2)) else none
  | n + 1, .opt c :: as, s =>
    match
      (match s with
       | c' :: s' =>
         if c' = c then
           match matchSeqF n as s' with
           | some r => some ([c] :: r.1, r.2)
           | none => none
         else none
       | [] => none : Option (List (List Char) × List Char))
    with
    | some r => some r
    | none => (matchSeqF n as s).map (fun r => ([] :: r.1, r.2))
  | n + 1, .plus p :: as, s =>
    tryLens (fun k => (matchSeqF n as (s.drop k)).map (fun r => (s.take k :: r.1, r.2)))
      (s.takeWhile p).length
  | n + 1, .star p :: as, s =>
    match tryLens (fun k => (matchSeqF n as (s.drop k)).map (fun r => (s.take k :: r.1, r.2)))
      (s.takeWhile p).length with
    | some r => some r
    | none => (matchSeqF n as s).map (fun r => ([] :: r.1, r.2))

/-- Match a sequence of atoms at the start of `s`, returning the consumed
chunk of each atom, in order, and the remaining input.  Greedy repetitions
backtrack from the longest candidate down, like the source's regex engine. -/

def matchSeq (atoms : List RAtom) (s : List Char) : Option (List (List Char) × List Char) :=
  matchSeqF atoms.length atoms s

/-- Unanchored leftmost match: try the pattern at position 0, 1, 2, ...,
returning the captured chunks of the first matching position. -/

def findRx (atoms : List RAtom) : List Char → Option (List (List Char))
  | [] =>
    match matchSeq atoms [] with
    | some r => some r.1
    | none => none
  | c :: s' =>
    match matchSeq atoms (c :: s') with
    | some r => some r.1
    | none => findRx atoms s'

/-- `Regex::is_match`. -/

def rxMatch (atoms : List RAtom) (s : List Char) : Bool := (findRx atoms s).isSome

/-- Shorthand for string literals of the model. -/

def strL (s : String) : List Char := s.toList

/-- The four device families of `linux/block.rs`. -/

inductive LinuxBlockDevice where
  | SCSI
  | VIRT
  | MMCBLK
  | NVME
deriving DecidableEq, Repr, Inhabited

/-- The bare-name patterns of `linux/block.rs` (`BLK_REGEX`):
`sd[a-z]`, `vd[a-z]`, `mmcblk\d+`, `nvme\d+[n]\d+`. -/

def BLK_REGEX : LinuxBlockDevice → List RAtom
  | .SCSI => [.lit (strL "sd"), .cls isLowerAz]
  | .VIRT => [.lit (strL "vd"), .cls isLowerAz]
  | .MMCBLK => [.lit (strL "mmcblk"), .plus isDigitRx]
  | .NVME => [.lit (strL "nvme"), .plus isDigitRx, .lit (strL "n"), .plus isDigitRx]

/-- The partition-path patterns of `linux/block.rs` (`BLK_PART_REGEX`).  The
final `plus` atom is the `part_num` group; everything before it is the
`prefix` group. -/

def BLK_PART_REGEX : LinuxBlockDevice → List RAtom
  | .SCSI => [.lit (strL "/dev/sd"), .cls isLowerAz, .plus isDigitRx]
  | .VIRT => [.lit (strL "/dev/vd"), .cls isLowerAz, .plus isDigitRx]
  | .MMCBLK => [.lit (strL "/dev/mmcblk"), .plus isDigitRx, .lit (strL "p"), .plus isDigitRx]
  | .NVME => [.lit (strL "/dev/nvme"), .plus isDigitRx, .lit (strL "n"), .plus isDigitRx,
              .lit (strL "p"), .plus isDigitRx]

/-- `linux_blk_name` of `linux/block.rs`: return the first family, in
iteration order `ord` of the regex map, whose bare-name pattern matches.  The
source iterates a `HashMap`, whose iteration order is an arbitrary but, within
one process, fixed permutation of the four families; the order is passed here
as the parameter `ord`. -/

def linux_blk_name (ord : List LinuxBlockDevice) (device_name : List Char) :
    Option LinuxBlockDevice :=
  ord.find? (fun b => rxMatch (BLK_REGEX b) device_name)

/-- `linux_part_prefix_and_part_num` of `linux/block.rs`: capture the `prefix`
and `part_num` groups of the family's partition-path pattern. -/

def linux_part_prefix_and_part_num (blk_dev : LinuxBlockDevice) (part_name : List Char) :
    Except (List Char) (List Char × List Char) :=
  match findRx (BLK_PART_REGEX blk_dev) part_name with
  | none => .error (strL "failed to match prefix and partition number")
  | some chunks => .ok (chunks.dropLast.flatten, chunks.getLastD [])

/-- `Partition` of `partition/mod.rs`. -/

structure Partition where
  designation : Nat
  start_block : Nat
  name : List Char
  extras : List (List Char)
deriving DecidableEq, Repr, Inhabited

/-- Value of a run of ASCII digit characters, as `str::parse::<usize>`. -/

def natOfDigits (cs : List Char) : Nat := cs.foldl (fun a c => 10 * a + (c.toNat - 48)) 0

/-- Little-endian decimal digit characters of `n`; the fuel is at least the
number of digits whenever it is at least `n`. -/

def toDigitsLE : Nat → Nat → List Char
  | 0, _ => []
  | fuel + 1, n => if n = 0 then [] else Char.ofNat (48 + n % 10) :: toDigitsLE fuel (n / 10)

/-- Decimal rendering of a `Nat`, as Rust's `Display` for `usize`. -/

def numChars (n : Nat) : List Char :=
  if n = 0 then ['0'] else (toDigitsLE n n).reverse

/-- Lists shrink under `dropWhile`. -/

def splitWsGo : List Char → List Char → List (List Char)
  | cur, [] => if cur.isEmpty then [] else [cur]
  | cur, c :: s =>
    if isSpaceRx c then
      if cur.isEmpty then splitWsGo [] s else cur :: splitWsGo [] s
    else splitWsGo (cur ++ [c]) s

/-- Rust `str::split_whitespace`: the maximal non-whitespace runs, in order. -/

def splitWhitespace (s : List Char) : List (List Char) := splitWsGo [] s

/-- `SFDISK_PARTITION_LINE_PATTERN` of `partition/parse.rs`:
`(?P<full_path>/dev/(\w+(?P<part_num>\d+)))\s+:\s+(:?start=\s+)(?P<start_block>\d+)[,](?P<rest>.*)`.
Chunk indices: 0 `/dev/`, 1 `\w+`, 2 `part_num`, 3 `\s+`, 4 `:`, 5 `\s+`,
6 `:?`, 7 `start=`, 8 `\s+`, 9 `start_block`, 10 `,`, 11 `rest`. -/

def SFDISK_PARTITION_LINE_PATTERN : List RAtom :=
  [.lit (strL "/dev/"), .plus isWordRx, .plus isDigitRx,
   .plus isSpaceRx, .lit (strL ":"), .plus isSpaceRx,
   .opt ':', .lit (strL "start="), .plus isSpaceRx,
   .plus isDigitRx, .lit (strL ","), .star (fun c => c != '\n')]

/-- `parse_sfdisk_partition_line` of `partition/parse.rs`.  On a match all
named groups are present and the digit groups are ASCII digits, so the
defensive error branches of the source are unreachable; the function is
modelled as returning `none` exactly when the pattern does not match. -/

def parse_sfdisk_partition_line (line : List Char) : Option Partition :=
  (findRx SFDISK_PARTITION_LINE_PATTERN line).map (fun chunks =>
    { name := (chunks.take 3).flatten
      designation := natOfDigits (chunks.getD 2 [])
      start_block := natOfDigits (chunks.getD 9 [])
      extras := splitWhitespace (chunks.getD 11 []) })

/-- `is_sfdisk_partition_line` of `partition/parse.rs`. -/

def is_sfdisk_partition_line (line : List Char) : Bool :=
  (parse_sfdisk_partition_line line).isSome

/-- `SFDISK_DEVICE_NAME_PATTERN` of `disk/mod.rs`:
`(?:device:\s+)(?P<device_name>(?:/dev/).*)`. -/

def SFDISK_DEVICE_NAME_PATTERN : List RAtom :=
  [.lit (strL "device:"), .plus isSpaceRx, .lit (strL "/dev/"), .star (fun c => c != '\n')]

/-- `parse_sfdisk_device_name_line` of `disk/mod.rs`: the `device_name`
capture is the `/dev/` literal together with the rest of the line. -/

def parse_sfdisk_device_name_line (line : List Char) : Option (List Char) :=
  (findRx SFDISK_DEVICE_NAME_PATTERN line).map (fun chunks => (chunks.drop 2).flatten)

/-- `is_sfdisk_device_name_line` of `disk/mod.rs`. -/

def is_sfdisk_device_name_line (line : List Char) : Bool :=
  (parse_sfdisk_device_name_line line).isSome

/-- `Disk` of `disk/mod.rs`. -/

structure Disk where
  name : List Char
  linux_block_device : LinuxBlockDevice
  header_lines : List (List Char)
  partitions : List Partition
deriving DecidableEq, Repr

/-- `Disk::new` of `disk/mod.rs`: classification of the disk name must
succeed. -/

def Disk.new (ord : List LinuxBlockDevice) (disk_name : List Char)
    (header_lines : List (List Char)) (partitions : List Partition) :
    Except (List Char) Disk :=
  match linux_blk_name ord disk_name with
  | some dev =>
    .ok { name := disk_name, linux_block_device := dev,
          header_lines := header_lines, partitions := partitions }
  | none => .error (strL "disk name does match known Linux block device name")

/-- Remove one trailing carriage return, if present. -/

def stripTrailCR (l : List Char) : List Char :=
  match l.getLast? with
  | some c => if c = '\r' then l.dropLast else l
  | none => l

/-- Worker of `linesOf`; `cur` is the current line accumulated so far. -/

def linesGo : List Char → List Char → List (List Char)
  | cur, [] => if cur.isEmpty then [] else [cur]
  | cur, c :: s =>
    if c = '\n' then stripTrailCR cur :: linesGo [] s
    else linesGo (cur ++ [c]) s

/-- Rust `str::lines`: split at `\n`, stripping one `\r` before each `\n`;
the final line ending is optional. -/

def linesOf (s : List Char) : List (List Char) := linesGo [] s

/-- Accumulator of the line scan of `parse_sfdisk_full_disk`. -/

structure ScanState where
  deviceName : Option (List Char)
  headerLines : List (List Char)
  partitions : List Partition
deriving DecidableEq, Repr

/-- One iteration of the scan loop of `parse_sfdisk_full_disk`
(`disk/mod.rs`): a partition line is parsed and appended to the partitions;
any other line is appended to the header lines, and if it is a device line
the device name is (re-)remembered. -/

def scanStep (st : ScanState) (line : List Char) : ScanState :=
  match parse_sfdisk_partition_line line with
  | some part => { st with partitions := st.partitions ++ [part] }
  | none =>
    let st' :=
      match parse_sfdisk_device_name_line line with
      | some d => { st with deviceName := some d }
      | none => st
    { st' with headerLines := st'.headerLines ++ [line] }

/-- The checks and construction after the scan loop of
`parse_sfdisk_full_disk`. -/

def assembleDisk (ord : List LinuxBlockDevice) (st : ScanState) :
    Except (List Char) Disk :=
  match st.deviceName with
  | none => .error (strL "missing device_name")
  | some dn =>
    if st.headerLines.isEmpty then .error (strL "missing header lines")
    else Disk.new ord dn st.headerLines st.partitions

/-- `parse_sfdisk_full_disk` of `disk/mod.rs`. -/

def parse_sfdisk_full_disk (ord : List LinuxBlockDevice) (prog_input : List Char) :
    Except (List Char) Disk :=
  assembleDisk ord ((linesOf prog_input).foldl scanStep ⟨none, [], []⟩)

/-- `Partition::redesignate` of `partition/mod.rs`: replace the name by the
captured prefix followed by the decimal rendering of the new designation. -/

def Partition.redesignate (p : Partition) (blk_dev : LinuxBlockDevice)
    (new_designation : Nat) : Except (List Char) Partition :=
  match linux_part_prefix_and_part_num blk_dev p.name with
  | .error e => .error e
  | .ok (pre, _) =>
    .ok { p with name := pre ++ numChars new_designation, designation := new_designation }

/-- The redesignation loop of `Disk::rearrange` (`disk/mod.rs`), on the
already sorted partition list, starting at 0-based index `i`.  The source
first checks the bare-name pattern of the family against the partition name,
then redesignates; the first failure aborts the loop. -/

def rearrangeLoop (blk : LinuxBlockDevice) : Nat → List Partition →
    Except (List Char) (List Partition)
  | _, [] => .ok []
  | i, p :: ps =>
    if rxMatch (BLK_REGEX blk) p.name then
      match p.redesignate blk (i + 1) with
      | .ok p' => (rearrangeLoop blk (i + 1) ps).map (fun qs => p' :: qs)
      | .error e => .error e
    else .error (strL "failed to get partition number")

/-- The sort order of `Disk::rearrange`: `a.start_block.cmp(&b.start_block)`.
Rust `sort_by` is a stable sort; it is modelled by the stable
`List.insertionSort`. -/

def lePart (a b : Partition) : Prop := a.start_block ≤ b.start_block

instance : DecidableRel lePart := fun a b => Nat.decLe a.start_block b.start_block

instance : IsTrans Partition lePart := ⟨fun _ _ _ hab hbc => Nat.le_trans hab hbc⟩

instance : IsTotal Partition lePart := ⟨fun a b => Nat.le_total a.start_block b.start_block⟩

/-- `Disk::rearrange` of `disk/mod.rs`. -/

def Disk.rearrange (d : Disk) : Except (List Char) Disk :=
  (rearrangeLoop d.linux_block_device 0 (List.insertionSort lePart d.partitions)).map
    (fun ps => { d with partitions := ps })

/-- Rust `Vec::join(" ")`. -/

def joinSpace : List (List Char) → List Char
  | [] => []
  | [t] => t
  | t :: ts => t ++ ' ' :: joinSpace ts

def Partition.display (p : Partition) : List Char :=
  p.name ++ strL " : start= " ++ numChars p.start_block ++ strL ", " ++
    joinSpace p.extras

/-- `print_disk` of `main.rs`: each header line and then each partition line,
each followed by a newline. -/

def print_disk (d : Disk) : List Char :=
  ((d.header_lines ++ d.partitions.map Partition.display).map (fun l => l ++ ['\n'])).flatten

/-- The fixed priority order named by the specification for `classify`. -/

def scsiFirstOrder : List LinuxBlockDevice :=
  [.SCSI, .VIRT, .MMCBLK, .NVME]

/-! ### Matcher theory -/

/-- Shape of the chunk consumed by one atom. -/

def ChunkOk : RAtom → List Char → Prop
  | .lit t, c => c = t
  | .cls p, c => ∃ ch, c = [ch] ∧ p ch
  | .plus p, c => c ≠ [] ∧ ∀ ch ∈ c, p ch
  | .star p, c => ∀ ch ∈ c, p ch
  | .opt ch, c => c = [] ∨ c = [ch]

def famShape : LinuxBlockDevice → List Char → Prop
  | .SCSI, pre => ∃ c, isLowerAz c = true ∧ pre = strL "/dev/sd" ++ [c]
  | .VIRT, pre => ∃ c, isLowerAz c = true ∧ pre = strL "/dev/vd" ++ [c]
  | .MMCBLK, pre => ∃ d1, d1 ≠ [] ∧ (∀ c ∈ d1, isDigitRx c = true) ∧
      pre = strL "/dev/mmcblk" ++ d1 ++ strL "p"
  | .NVME, pre => ∃ d1 d2, d1 ≠ [] ∧ d2 ≠ [] ∧ (∀ c ∈ d1, isDigitRx c = true) ∧
      (∀ c ∈ d2, isDigitRx c = true) ∧
      pre = strL "/dev/nvme" ++ d1 ++ strL "n" ++ d2 ++ strL "p"

/-- A successful prefix/number extraction yields a prefix of the family's
shape and a nonempty digit string. -/

instance {ε α : Type _} [DecidableEq ε] [DecidableEq α] : DecidableEq (Except ε α) :=
  fun x y =>
    match x, y with
    | .ok a, .ok b =>
      if h : a = b then .isTrue (by rw [h])
      else .isFalse (by intro he; injection he with he; exact h he)
    | .error a, .error b =>
      if h : a = b then .isTrue (by rw [h])
      else .isFalse (by intro he; injection he with he; exact h he)
    | .ok _, .error _ => .isFalse (fun he => Except.noConfusion he)
    | .error _, .ok _ => .isFalse (fun he => Except.noConfusion he)

def sdaUnsorted : Disk :=
  { name := strL "/dev/sda", linux_block_device := .SCSI,
    header_lines := [strL "device: /dev/sda"],
    partitions :=
      [ { designation := 1, start_block := 2048, name := strL "/dev/sda1", extras := [] },
        { designation := 2, start_block := 2069, name := strL "/dev/sda2", extras := [] },
        { designation := 3, start_block := 2022, name := strL "/dev/sda3", extras := [] },
        { designation := 4, start_block := 1969, name := strL "/dev/sda4", extras := [] } ] }

/-- The expected result of rearranging `sdaUnsorted`. -/

def sdaSorted : Disk :=
  { name := strL "/dev/sda", linux_block_device := .SCSI,
    header_lines := [strL "device: /dev/sda"],
    partitions :=
      [ { designation := 1, start_block := 1969, name := strL "/dev/sda1", extras := [] },
        { designation := 2, start_block := 2022, name := strL "/dev/sda2", extras := [] },
        { designation := 3, start_block := 2048, name := strL "/dev/sda3", extras := [] },
        { designation := 4, start_block := 2069, name := strL "/dev/sda4", extras := [] } ] }

/-- A disk with no partitions. -/

def emptyDisk : Disk :=
  { name := strL "/dev/sda", linux_block_device := .SCSI,
    header_lines := [strL "device: /dev/sda"], partitions := [] }

/-! ### Claims about rearrange and the classifier -/

/-- Claim C10: on a disk with an empty partitions sequence, `rearrange`
returns `Ok` and leaves the disk completely unchanged; the sort and the
redesignation loop are vacuous. -/

def c6Disk : Disk :=
  { name := strL "/dev/sda", linux_block_device := .SCSI,
    header_lines := [strL "device: /dev/sda"],
    partitions :=
      [ { designation := 9, start_block := 1, name := strL "/dev/vdb9",
          extras := [strL "x"] } ] }

/-- Counterexample to C6 as stated: this dump parses successfully although
its only partition's name does not match the disk family's partition-path
pattern — parsing does not establish the invariant. -/

def devOf : List (List Char) → Option (List Char)
  | [] => none
  | l :: ls =>
    match devOf ls with
    | some d => some d
    | none =>
      match parse_sfdisk_partition_line l with
      | some _ => none
      | none => parse_sfdisk_device_name_line l

def c5Disk : Disk :=
  { name := strL "/dev/vda", linux_block_device := .VIRT,
    header_lines := [strL "device: /dev/sda", strL "device: /dev/vda"],
    partitions := [] }

/-- Counterexample to C5 as stated: with two device lines the parsed disk
name is the capture of the second (last) line, not of the first. -/

def c2Dump : List Char := strL "device: /dev/sda\r\r\n/dev/sda1 : start= 5, a"

/-- The disk parsed from `c2Dump`: name and header keep one `\x5cr`. -/

def c2Disk : Disk :=
  { name := strL "/dev/sda\r", linux_block_device := .SCSI,
    header_lines := [strL "device: /dev/sda\r"],
    partitions := [{ designation := 1, start_block := 5,
                     name := strL "/dev/sda1", extras := [strL "a"] }] }

/-- The disk parsed from `print_disk c2Disk`: the re-parse strips the `\x5cr`
before the printed newline, so name and header differ from `c2Disk`. -/

def c2DiskB : Disk :=
  { name := strL "/dev/sda", linux_block_device := .SCSI,
    header_lines := [strL "device: /dev/sda"],
    partitions := [{ designation := 1, start_block := 5,
                     name := strL "/dev/sda1", extras := [strL "a"] }] }

/-- Counterexample to the unconditional C2 round trip: a well-formed dump
with `\x5cr\x5cn` line endings parses successfully, but re-parsing its serialization
yields a different disk (the stored carriage returns are stripped). -/

def c2CleanDump : List Char :=
  strL "device: /dev/sda\n/dev/sda2 : start= 9, b\n/dev/sda1 : start= 5, a\n"

/-- The disk parsed from `c2CleanDump`. -/

def c2CleanDisk : Disk :=
  { name := strL "/dev/sda", linux_block_device := .SCSI,
    header_lines := [strL "device: /dev/sda"],
    partitions := [{ designation := 2, start_block := 9,
                     name := strL "/dev/sda2", extras := [strL "b"] },
                   { designation := 1, start_block := 5,
                     name := strL "/dev/sda1", extras := [strL "a"] }] }

/-! ### Theorems -/

theorem length_dropWhile_le (p : α → Bool) (l : List α) :
    (l.dropWhile p).length ≤ l.length :=
  (List.dropWhile_sublist p).length_le

/-- Worker of `splitWhitespace`; `cur` is the current token accumulated so
far (all of its characters are non-whitespace). -/

theorem joinSpace_nil : joinSpace [] = [] := rfl

theorem joinSpace_single (t : List Char) : joinSpace [t] = t := rfl

theorem joinSpace_cons2 (t u : List Char) (ts : List (List Char)) :
    joinSpace (t :: u :: ts) = t ++ ' ' :: joinSpace (u :: ts) := rfl

/-- The `Display` rendering of a partition (`partition/mod.rs`):
`<name> : start= <start_block>, <extras joined by single spaces>`. -/

theorem startsWith_iff {t s : List Char} : startsWith t s = true ↔ ∃ u, s = t ++ u := by
  induction t generalizing s with
  | nil => simp [startsWith]
  | cons a as ih =>
    cases s with
    | nil => simp [startsWith]
    | cons b bs =>
      simp only [startsWith, Bool.and_eq_true, decide_eq_true_eq, ih]
      constructor
      · rintro ⟨rfl, u, rfl⟩; exact ⟨u, rfl⟩
      · rintro ⟨u, h⟩
        injection h with h1 h2
        exact ⟨h1.symm, u, h2⟩

theorem startsWith_append (t u : List Char) : startsWith t (t ++ u) = true :=
  startsWith_iff.mpr ⟨u, rfl⟩

theorem tryLens_of_some {f : Nat → Option α} {k : Nat} {r : α} (h : f (k + 1) = some r) :
    tryLens f (k + 1) = some r := by
  simp [tryLens, h]

theorem tryLens_of_none {f : Nat → Option α} {k : Nat} (h : f (k + 1) = none) :
    tryLens f (k + 1) = tryLens f k := by
  simp [tryLens, h]

theorem tryLens_some {f : Nat → Option α} :
    ∀ {k : Nat} {r : α}, tryLens f k = some r →
      ∃ j, 1 ≤ j ∧ j ≤ k ∧ f j = some r ∧ ∀ i, j < i → i ≤ k → f i = none := by
  intro k
  induction k with
  | zero => intro r h; simp [tryLens] at h
  | succ k ih =>
    intro r h
    rw [tryLens] at h
    cases hf : f (k + 1) with
    | some v =>
      rw [hf] at h
      cases h
      exact ⟨k + 1, by omega, Nat.le_refl _, hf, fun i hi hi' => by omega⟩
    | none =>
      rw [hf] at h
      obtain ⟨j, hj1, hjk, hfj, hmax⟩ := ih h
      refine ⟨j, hj1, by omega, hfj, fun i hi hi' => ?_⟩
      rcases Nat.lt_or_ge i (k + 1) with h' | h'
      · exact hmax i hi (by omega)
      · have : i = k + 1 := by omega
        subst this; exact hf

theorem matchSeqF_fuel :
    ∀ (atoms : List RAtom) {n : Nat} (s : List Char), atoms.length ≤ n →
      matchSeqF n atoms s = matchSeq atoms s := by
  intro atoms
  induction atoms with
  | nil => intro n s _; cases n <;> rfl
  | cons a as ih =>
    intro n s hn
    obtain ⟨m, rfl⟩ : ∃ m, n = m + 1 := by
      cases n with
      | zero => simp at hn
      | succ m => exact ⟨m, rfl⟩
    have hm : as.length ≤ m := by simpa using hn
    have h1 : ∀ u, matchSeqF m as u = matchSeq as u := fun u => ih u hm
    have h2 : ∀ u, matchSeqF as.length as u = matchSeq as u := fun u => ih u (Nat.le_refl _)
    show matchSeqF (m + 1) (a :: as) s = matchSeqF (as.length + 1) (a :: as) s
    cases a <;> simp only [matchSeqF, h1, h2]

theorem matchSeq_nil (s : List Char) : matchSeq [] s = some ([], s) := rfl

theorem matchSeq_lit (t : List Char) (as : List RAtom) (s : List Char) :
    matchSeq (.lit t :: as) s =
      if startsWith t s then (matchSeq as (s.drop t.length)).map (fun r => (t :: r.1, r.2))
      else none := rfl

theorem matchSeq_cls (p : Char → Bool) (as : List RAtom) (s : List Char) :
    matchSeq (.cls p :: as) s =
      match s with
      | [] => none
      | c :: s' => if p c then (matchSeq as s').map (fun r => ([c] :: r.1, r.2)) else none := by
  cases s <;> rfl

theorem matchSeq_opt (c : Char) (as : List RAtom) (s : List Char) :
    matchSeq (.opt c :: as) s =
      match
        (match s with
         | c' :: s' =>
           if c' = c then
             match matchSeq as s' with
             | some r => some ([c] :: r.1, r.2)
             | none => none
           else none
         | [] => none : Option (List (List Char) × List Char))
      with
      | some r => some r
      | none => (matchSeq as s).map (fun r => ([] :: r.1, r.2)) := by
  cases s <;> rfl

theorem matchSeq_plus (p : Char → Bool) (as : List RAtom) (s : List Char) :
    matchSeq (.plus p :: as) s =
      tryLens (fun k => (matchSeq as (s.drop k)).map (fun r => (s.take k :: r.1, r.2)))
        (s.takeWhile p).length := rfl

theorem matchSeq_star (p : Char → Bool) (as : List RAtom) (s : List Char) :
    matchSeq (.star p :: as) s =
      match tryLens (fun k => (matchSeq as (s.drop k)).map (fun r => (s.take k :: r.1, r.2)))
        (s.takeWhile p).length with
      | some r => some r
      | none => (matchSeq as s).map (fun r => ([] :: r.1, r.2)) := rfl

theorem take_of_le_takeWhile {p : Char → Bool} {s : List Char} {j : Nat}
    (hj : j ≤ (s.takeWhile p).length) : ∀ c ∈ s.take j, p c := by
  intro c hc
  have h1 : s.take j = (s.takeWhile p).take j := by
    conv_lhs => rw [← List.takeWhile_append_dropWhile (p := p) (l := s)]
    exact List.take_append_of_le_length hj
  rw [h1] at hc
  exact List.mem_takeWhile_imp (List.mem_of_mem_take hc)

theorem matchSeq_sound :
    ∀ (atoms : List RAtom) (s : List Char) (cs : List (List Char)) (rem : List Char),
      matchSeq atoms s = some (cs, rem) →
      s = cs.flatten ++ rem ∧ List.Forall₂ ChunkOk atoms cs := by
  intro atoms
  induction atoms with
  | nil =>
    intro s cs rem h
    rw [matchSeq_nil] at h
    cases h
    simp [List.Forall₂]
  | cons a as ih =>
    intro s cs rem h
    cases a with
    | lit t =>
      rw [matchSeq_lit] at h
      by_cases hs : startsWith t s
      · rw [if_pos hs] at h
        obtain ⟨u, rfl⟩ := startsWith_iff.mp hs
        cases hm : matchSeq as ((t ++ u).drop t.length) with
        | none => rw [hm] at h; exact Option.noConfusion h
        | some r =>
          rw [hm] at h
          simp only [Option.map_some'] at h
          cases h
          rw [List.drop_left] at hm
          obtain ⟨h1, h2⟩ := ih u r.1 r.2 hm
          constructor
          · simp [h1]
          · exact List.Forall₂.cons rfl h2
      · rw [if_neg hs] at h; simp at h
    | cls p =>
      rw [matchSeq_cls] at h
      cases s with
      | nil => simp at h
      | cons c s' =>
        simp only at h
        by_cases hp : p c
        · rw [if_pos hp] at h
          cases hm : matchSeq as s' with
          | none => rw [hm] at h; exact Option.noConfusion h
          | some r =>
            rw [hm] at h
            simp only [Option.map_some'] at h
            cases h
            obtain ⟨h1, h2⟩ := ih s' r.1 r.2 hm
            constructor
            · simp [h1]
            · exact List.Forall₂.cons ⟨c, rfl, hp⟩ h2
        · rw [if_neg hp] at h; simp at h
    | opt c =>
      rw [matchSeq_opt] at h
      cases s with
      | nil =>
        simp only at h
        cases hm : matchSeq as [] with
        | none => rw [hm] at h; exact Option.noConfusion h
        | some r =>
          rw [hm] at h
          simp only [Option.map_some'] at h
          cases h
          obtain ⟨h1, h2⟩ := ih [] r.1 r.2 hm
          constructor
          · simpa using h1
          · exact List.Forall₂.cons (Or.inl rfl) h2
      | cons c' s' =>
        by_cases hc : c' = c
        · subst hc
          simp only [if_pos rfl] at h
          cases hm : matchSeq as s' with
          | none =>
            rw [hm] at h
            simp only at h
            cases hm2 : matchSeq as (c' :: s') with
            | none => rw [hm2] at h; exact Option.noConfusion h
            | some r =>
              rw [hm2] at h
              simp only [Option.map_some'] at h
              cases h
              obtain ⟨h1, h2⟩ := ih _ r.1 r.2 hm2
              exact ⟨by simpa using h1, List.Forall₂.cons (Or.inl rfl) h2⟩
          | some r =>
            rw [hm] at h
            simp only at h
            cases h
            obtain ⟨h1, h2⟩ := ih s' r.1 r.2 hm
            constructor
            · simp [h1]
            · exact List.Forall₂.cons (Or.inr rfl) h2
        · simp only [if_neg hc] at h
          cases hm2 : matchSeq as (c' :: s') with
          | none => rw [hm2] at h; exact Option.noConfusion h
          | some r =>
            rw [hm2] at h
            simp only [Option.map_some'] at h
            cases h
            obtain ⟨h1, h2⟩ := ih _ r.1 r.2 hm2
            exact ⟨by simpa using h1, List.Forall₂.cons (Or.inl rfl) h2⟩
    | plus p =>
      rw [matchSeq_plus] at h
      obtain ⟨j, hj1, hjk, hfj, _⟩ := tryLens_some h
      cases hm : matchSeq as (s.drop j) with
      | none => rw [hm] at hfj; exact Option.noConfusion hfj
      | some r =>
        rw [hm] at hfj
        simp only [Option.map_some'] at hfj
        cases hfj
        obtain ⟨h1, h2⟩ := ih (s.drop j) r.1 r.2 hm
        constructor
        · conv_lhs => rw [← List.take_append_drop j s]
          simp [h1]
        · refine List.Forall₂.cons ⟨?_, take_of_le_takeWhile hjk⟩ h2
          have hlen : (s.take j).length = j := by
            have := (List.takeWhile_sublist (l := s) p).length_le
            simp
            omega
          intro hnil
          rw [hnil] at hlen
          simp at hlen
          omega
    | star p =>
      rw [matchSeq_star] at h
      cases htl : tryLens (fun k => (matchSeq as (s.drop k)).map
          (fun r => (s.take k :: r.1, r.2))) (s.takeWhile p).length with
      | some r0 =>
        rw [htl] at h
        cases h
        obtain ⟨j, hj1, hjk, hfj, _⟩ := tryLens_some htl
        cases hm : matchSeq as (s.drop j) with
        | none => rw [hm] at hfj; exact Option.noConfusion hfj
        | some r =>
          rw [hm] at hfj
          simp only [Option.map_some'] at hfj
          cases hfj
          obtain ⟨h1, h2⟩ := ih (s.drop j) r.1 r.2 hm
          constructor
          · conv_lhs => rw [← List.take_append_drop j s]
            simp [h1]
          · exact List.Forall₂.cons (take_of_le_takeWhile hjk) h2
      | none =>
        rw [htl] at h
        cases hm : matchSeq as s with
        | none => rw [hm] at h; exact Option.noConfusion h
        | some r =>
          rw [hm] at h
          simp only [Option.map_some'] at h
          cases h
          obtain ⟨h1, h2⟩ := ih s r.1 r.2 hm
          constructor
          · simpa using h1
          · exact List.Forall₂.cons (by intro ch hch; simp at hch) h2

/-- Strong inversion of the greedy `plus` case: the chosen chunk length is
maximal among the viable candidates. -/

theorem matchSeq_plus_inv {p : Char → Bool} {as : List RAtom} {s : List Char}
    {cs : List (List Char)} {rem : List Char}
    (h : matchSeq (.plus p :: as) s = some (cs, rem)) :
    ∃ j cs', 1 ≤ j ∧ j ≤ (s.takeWhile p).length ∧ cs = s.take j :: cs' ∧
      matchSeq as (s.drop j) = some (cs', rem) ∧
      ∀ i, j < i → i ≤ (s.takeWhile p).length → matchSeq as (s.drop i) = none := by
  rw [matchSeq_plus] at h
  obtain ⟨j, hj1, hjk, hfj, hmax⟩ := tryLens_some h
  cases hm : matchSeq as (s.drop j) with
  | none => rw [hm] at hfj; exact Option.noConfusion hfj
  | some r =>
    rw [hm] at hfj
    simp only [Option.map_some'] at hfj
    cases hfj
    refine ⟨j, r.1, hj1, hjk, rfl, hm, ?_⟩
    intro i hi hik
    have := hmax i hi hik
    cases hmi : matchSeq as (s.drop i) with
    | none => rfl
    | some r' => rw [hmi] at this; simp at this

theorem findRx_at_zero {atoms : List RAtom} {s : List Char}
    {r : List (List Char) × List Char} (h : matchSeq atoms s = some r) :
    findRx atoms s = some r.1 := by
  cases s with
  | nil => simp [findRx, h]
  | cons c s' => simp [findRx, h]

theorem findRx_some {atoms : List RAtom} {s : List Char} {cs : List (List Char)}
    (h : findRx atoms s = some cs) :
    ∃ n rem, matchSeq atoms (s.drop n) = some (cs, rem) := by
  induction s with
  | nil =>
    rw [findRx] at h
    cases hm : matchSeq atoms [] with
    | none => rw [hm] at h; exact Option.noConfusion h
    | some r =>
      rw [hm] at h
      injection h with h
      exact ⟨0, r.2, by rw [List.drop_nil]; rw [hm, ← h]⟩
  | cons c s' ih =>
    rw [findRx] at h
    cases hm : matchSeq atoms (c :: s') with
    | none =>
      rw [hm] at h
      obtain ⟨n, rem, hn⟩ := ih h
      exact ⟨n + 1, rem, hn⟩
    | some r =>
      rw [hm] at h
      injection h with h
      exact ⟨0, r.2, by rw [List.drop_zero]; rw [hm, ← h]⟩

theorem findRx_isSome_of {atoms : List RAtom} {s : List Char} {n : Nat}
    {r : List (List Char) × List Char} (h : matchSeq atoms (s.drop n) = some r) :
    (findRx atoms s).isSome := by
  induction s generalizing n with
  | nil =>
    rw [List.drop_nil] at h
    rw [findRx, h]
    rfl
  | cons c s' ih =>
    rw [findRx]
    cases hm : matchSeq atoms (c :: s') with
    | some r' => rfl
    | none =>
      cases n with
      | zero => rw [List.drop_zero] at h; rw [h] at hm; exact Option.noConfusion hm
      | succ m => exact ih (n := m) h

/-! Computation-step lemmas for matching concretely structured inputs. -/

theorem matchSeq_lit_pre {t u : List Char} {as : List RAtom}
    {r : List (List Char) × List Char} (h : matchSeq as u = some r) :
    matchSeq (.lit t :: as) (t ++ u) = some (t :: r.1, r.2) := by
  rw [matchSeq_lit, if_pos (startsWith_append t u), List.drop_left, h, Option.map_some']

theorem matchSeq_cls_pre {p : Char → Bool} {c : Char} {u : List Char} {as : List RAtom}
    {r : List (List Char) × List Char} (hp : p c) (h : matchSeq as u = some r) :
    matchSeq (.cls p :: as) (c :: u) = some ([c] :: r.1, r.2) := by
  rw [matchSeq_cls]
  simp only [if_pos hp, h, Option.map_some']

theorem matchSeq_opt_nil {c : Char} {as : List RAtom} :
    matchSeq (.opt c :: as) [] = (matchSeq as []).map (fun r => ([] :: r.1, r.2)) := rfl

theorem matchSeq_opt_cons_ne {c c' : Char} {s' : List Char} {as : List RAtom}
    (hne : c' ≠ c) :
    matchSeq (.opt c :: as) (c' :: s') =
      (matchSeq as (c' :: s')).map (fun r => ([] :: r.1, r.2)) := by
  show matchSeqF (as.length + 1) (RAtom.opt c :: as) (c' :: s') =
    (matchSeq as (c' :: s')).map (fun r => ([] :: r.1, r.2))
  simp only [matchSeqF, if_neg hne]
  rfl

theorem matchSeq_opt_skip {c : Char} {s : List Char} {as : List RAtom}
    {r : List (List Char) × List Char}
    (hhd : ∀ c' s', s = c' :: s' → c' ≠ c) (h : matchSeq as s = some r) :
    matchSeq (.opt c :: as) s = some ([] :: r.1, r.2) := by
  cases s with
  | nil => rw [matchSeq_opt_nil, h, Option.map_some']
  | cons c' s' => rw [matchSeq_opt_cons_ne (hhd c' s' rfl), h, Option.map_some']

/-- A greedy repetition whose full run is viable consumes exactly the run. -/

theorem matchSeq_plus_run {p : Char → Bool} {run rest : List Char} {as : List RAtom}
    {r : List (List Char) × List Char}
    (hne : run ≠ []) (hall : ∀ c ∈ run, p c) (hbd : rest.takeWhile p = [])
    (h : matchSeq as rest = some r) :
    matchSeq (.plus p :: as) (run ++ rest) = some (run :: r.1, r.2) := by
  have htw : (run ++ rest).takeWhile p = run := by
    rw [List.takeWhile_append_of_pos hall, hbd, List.append_nil]
  rw [matchSeq_plus, htw]
  obtain ⟨m, hm⟩ : ∃ m, run.length = m + 1 := by
    cases hrun : run with
    | nil => exact absurd hrun hne
    | cons a l => exact ⟨l.length, by simp⟩
  rw [hm]
  have hf : ((run ++ rest).drop (m + 1)) = rest := by
    rw [← hm, List.drop_left]
  have ht : ((run ++ rest).take (m + 1)) = run := by
    rw [← hm, List.take_left]
  exact tryLens_of_some (by rw [hf, ht, h, Option.map_some'])

/-- A greedy repetition that must give one character back: the full run fails
(the continuation rejects `rest`) but leaving the last character succeeds. -/

theorem matchSeq_plus_back_one {p : Char → Bool} {w : List Char} {c : Char}
    {rest : List Char} {as : List RAtom} {r : List (List Char) × List Char}
    (hwne : w ≠ []) (hall : ∀ x ∈ w ++ [c], p x) (hbd : rest.takeWhile p = [])
    (hfail : matchSeq as rest = none) (h : matchSeq as (c :: rest) = some r) :
    matchSeq (.plus p :: as) (w ++ [c] ++ rest) = some (w :: r.1, r.2) := by
  have htw : (w ++ [c] ++ rest).takeWhile p = w ++ [c] := by
    rw [List.takeWhile_append_of_pos hall, hbd, List.append_nil]
  rw [matchSeq_plus, htw]
  obtain ⟨m, hm⟩ : ∃ m, w.length = m + 1 := by
    cases hrun : w with
    | nil => exact absurd hrun hwne
    | cons a l => exact ⟨l.length, by simp⟩
  have hlen : (w ++ [c]).length = m + 1 + 1 := by simp [hm]
  rw [hlen]
  have hdropfull : ((w ++ [c] ++ rest).drop (m + 1 + 1)) = rest := by
    have : (w ++ [c]).length = m + 1 + 1 := hlen
    rw [← this, List.drop_left]
  have hstep1 : matchSeq (.plus p :: as) (w ++ [c] ++ rest) =
      tryLens (fun k => (matchSeq as ((w ++ [c] ++ rest).drop k)).map
        (fun r => ((w ++ [c] ++ rest).take k :: r.1, r.2))) (m + 1 + 1) := by
    rw [matchSeq_plus, htw, hlen]
  rw [tryLens_of_none (by rw [hdropfull, hfail]; rfl)]
  have hdrop1 : ((w ++ [c] ++ rest).drop (m + 1)) = c :: rest := by
    have h2 : w ++ [c] ++ rest = w ++ (c :: rest) := by simp
    rw [h2, ← hm, List.drop_left]
  have htake1 : ((w ++ [c] ++ rest).take (m + 1)) = w := by
    have h2 : w ++ [c] ++ rest = w ++ (c :: rest) := by simp
    rw [h2, ← hm, List.take_left]
  exact tryLens_of_some (by rw [hdrop1, htake1, h, Option.map_some'])

/-- A final greedy `*` consumes the whole remaining input when every character
satisfies the class. -/

theorem matchSeq_star_all {p : Char → Bool} {s : List Char} (hall : ∀ c ∈ s, p c) :
    matchSeq [.star p] s = some ([s], []) := by
  have htw : s.takeWhile p = s := List.takeWhile_eq_self_iff.mpr hall
  rw [matchSeq_star, htw]
  cases hs : s with
  | nil => simp [tryLens, matchSeq_nil]
  | cons a l =>
    have hlen : s.length = l.length + 1 := by rw [hs]; simp
    rw [← hs]
    rw [hlen]
    rw [tryLens_of_some (by
      rw [List.drop_of_length_le (by omega), List.take_of_length_le (by omega),
        matchSeq_nil, Option.map_some'])]

/-! ### Character-class facts -/

theorem char_ne_of_toNat_ne {c d : Char} (h : c.toNat ≠ d.toNat) : c ≠ d :=
  fun he => h (he ▸ rfl)

theorem isDigitRx_isWordRx {c : Char} (h : isDigitRx c = true) : isWordRx c = true := by
  simp only [isDigitRx, Bool.and_eq_true, decide_eq_true_eq] at h
  simp only [isWordRx, Bool.or_eq_true, Bool.and_eq_true, decide_eq_true_eq]
  omega

theorem isDigitRx_not_space {c : Char} (h : isDigitRx c = true) : isSpaceRx c = false := by
  simp only [isDigitRx, Bool.and_eq_true, decide_eq_true_eq] at h
  simp only [isSpaceRx, Bool.or_eq_false_iff, Bool.and_eq_false_iff,
    decide_eq_false_iff_not]
  omega

theorem isWordRx_not_space {c : Char} (h : isWordRx c = true) : isSpaceRx c = false := by
  simp only [isWordRx, Bool.or_eq_true, Bool.and_eq_true, decide_eq_true_eq] at h
  simp only [isSpaceRx, Bool.or_eq_false_iff, Bool.and_eq_false_iff,
    decide_eq_false_iff_not]
  omega

theorem isDigitRx_ne_nl {c : Char} (h : isDigitRx c = true) : c ≠ '\n' := by
  simp only [isDigitRx, Bool.and_eq_true, decide_eq_true_eq] at h
  exact char_ne_of_toNat_ne (by simpa using by omega)

theorem not_space_ne_nl {c : Char} (h : isSpaceRx c = false) : c ≠ '\n' := by
  intro he
  subst he
  simp [isSpaceRx] at h

theorem not_space_ne_cr {c : Char} (h : isSpaceRx c = false) : c ≠ '\r' := by
  intro he
  subst he
  simp [isSpaceRx] at h

theorem isDigitRx_ne_cr {c : Char} (h : isDigitRx c = true) : c ≠ '\r' :=
  not_space_ne_cr (isDigitRx_not_space h)

/-! ### Decimal rendering and parsing -/

theorem toNat_char_of_digit {d : Nat} (hd : d < 10) : (Char.ofNat (48 + d)).toNat = 48 + d := by
  interval_cases d <;> decide

theorem isDigitRx_char_of_digit {d : Nat} (hd : d < 10) :
    isDigitRx (Char.ofNat (48 + d)) = true := by
  interval_cases d <;> decide

theorem toDigitsLE_eq : ∀ {fuel n : Nat}, n ≤ fuel →
    toDigitsLE fuel n = (Nat.digits 10 n).map (fun d => Char.ofNat (48 + d)) := by
  intro fuel
  induction fuel with
  | zero =>
    intro n h
    have : n = 0 := by omega
    subst this
    simp [toDigitsLE]
  | succ fuel ih =>
    intro n h
    by_cases hn : n = 0
    · subst hn; simp [toDigitsLE]
    · rw [toDigitsLE, if_neg hn]
      rw [Nat.digits_def' (b := 10) (by norm_num) (Nat.pos_of_ne_zero hn), List.map_cons]
      congr 1
      have hlt : n / 10 < n := Nat.div_lt_self (Nat.pos_of_ne_zero hn) (by norm_num)
      exact ih (by omega)

theorem numChars_digits (n : Nat) :
    numChars n = if n = 0 then ['0']
      else ((Nat.digits 10 n).map (fun d => Char.ofNat (48 + d))).reverse := by
  unfold numChars
  by_cases h : n = 0
  · simp [h]
  · simp only [h, if_false]
    rw [toDigitsLE_eq (Nat.le_refl n)]

theorem numChars_ne_nil (n : Nat) : numChars n ≠ [] := by
  rw [numChars_digits]
  by_cases h : n = 0
  · simp [h]
  · simp only [h, if_false]
    intro he
    rw [List.reverse_eq_nil_iff, List.map_eq_nil_iff] at he
    exact h (Nat.digits_eq_nil_iff_eq_zero.mp he)

theorem numChars_all_digit (n : Nat) : ∀ c ∈ numChars n, isDigitRx c = true := by
  rw [numChars_digits]
  by_cases h : n = 0
  · simp [h]
    decide
  · simp only [h, if_false, List.mem_reverse, List.mem_map]
    rintro c ⟨d, hd, rfl⟩
    exact isDigitRx_char_of_digit (Nat.digits_lt_base (by omega) hd)

theorem natOfDigits_rev_map {L : List Nat} (hL : ∀ d ∈ L, d < 10) :
    natOfDigits ((L.map (fun d => Char.ofNat (48 + d))).reverse) = Nat.ofDigits 10 L := by
  induction L with
  | nil => simp [natOfDigits, Nat.ofDigits]
  | cons d L ih =>
    have hd : d < 10 := hL d (List.mem_cons_self d L)
    have hL' : ∀ x ∈ L, x < 10 := fun x hx => hL x (List.mem_cons_of_mem d hx)
    simp only [List.map_cons, List.reverse_cons]
    unfold natOfDigits
    rw [List.foldl_append]
    have h1 : (L.map (fun d => Char.ofNat (48 + d))).reverse.foldl
        (fun a c => 10 * a + (c.toNat - 48)) 0 = Nat.ofDigits 10 L := ih hL'
    unfold natOfDigits at h1
    rw [h1]
    simp only [List.foldl_cons, List.foldl_nil]
    rw [toNat_char_of_digit hd, Nat.ofDigits_cons]
    omega

theorem natOfDigits_numChars (n : Nat) : natOfDigits (numChars n) = n := by
  rw [numChars_digits]
  by_cases h : n = 0
  · simp [h]
    decide
  · simp only [h, if_false]
    rw [natOfDigits_rev_map (fun d hd => Nat.digits_lt_base (by omega) hd)]
    exact_mod_cast Nat.ofDigits_digits 10 n

/-! ### splitWhitespace, joinSpace, lines -/

theorem splitWsGo_spec :
    ∀ (s cur : List Char), (∀ c ∈ cur, isSpaceRx c = false) →
      ∀ t ∈ splitWsGo cur s, t ≠ [] ∧ ∀ c ∈ t, isSpaceRx c = false := by
  intro s
  induction s with
  | nil =>
    intro cur hcur t ht
    rw [splitWsGo] at ht
    by_cases hc : cur.isEmpty
    · rw [if_pos hc] at ht; simp at ht
    · rw [if_neg hc] at ht
      rcases List.mem_singleton.mp ht with rfl
      exact ⟨by simpa [List.isEmpty_iff] using hc, hcur⟩
  | cons c s' ih =>
    intro cur hcur t ht
    rw [splitWsGo] at ht
    by_cases hsp : isSpaceRx c
    · rw [if_pos hsp] at ht
      by_cases hc : cur.isEmpty
      · rw [if_pos hc] at ht
        exact ih [] (by simp) t ht
      · rw [if_neg hc] at ht
        rcases List.mem_cons.mp ht with rfl | ht'
        · exact ⟨by simpa [List.isEmpty_iff] using hc, hcur⟩
        · exact ih [] (by simp) t ht'
    · rw [if_neg hsp] at ht
      refine ih (cur ++ [c]) ?_ t ht
      intro x hx
      rcases List.mem_append.mp hx with h | h
      · exact hcur x h
      · rcases List.mem_singleton.mp h with rfl
        simpa using hsp

theorem splitWhitespace_spec (s : List Char) :
    ∀ t ∈ splitWhitespace s, t ≠ [] ∧ ∀ c ∈ t, isSpaceRx c = false :=
  splitWsGo_spec s [] (by simp)

theorem splitWsGo_chars :
    ∀ {t : List Char}, (∀ c ∈ t, isSpaceRx c = false) →
      ∀ (cur s : List Char), splitWsGo cur (t ++ s) = splitWsGo (cur ++ t) s := by
  intro t
  induction t with
  | nil => intro _ cur s; simp
  | cons c t' ih =>
    intro hall cur s
    have hc : isSpaceRx c = false := hall c (List.mem_cons_self c t')
    rw [List.cons_append, splitWsGo, if_neg (by simp [hc])]
    rw [ih (fun x hx => hall x (List.mem_cons_of_mem c hx)) (cur ++ [c]) s]
    congr 1
    simp

theorem splitWsGo_token {t : List Char} (ht : t ≠ []) {s : List Char}
    (hs : ∀ c s', s = c :: s' → isSpaceRx c = true) :
    splitWsGo t s = t :: splitWhitespace s := by
  cases s with
  | nil =>
    rw [splitWsGo, if_neg (by simpa [List.isEmpty_iff] using ht)]
    rfl
  | cons c s' =>
    have hc := hs c s' rfl
    rw [splitWsGo, if_pos hc, if_neg (by simpa [List.isEmpty_iff] using ht)]
    unfold splitWhitespace
    rw [splitWsGo, if_pos hc]
    rfl

theorem splitWhitespace_token_append {t s : List Char} (ht : t ≠ [])
    (hall : ∀ c ∈ t, isSpaceRx c = false)
    (hs : ∀ c s', s = c :: s' → isSpaceRx c = true) :
    splitWhitespace (t ++ s) = t :: splitWhitespace s := by
  unfold splitWhitespace
  rw [splitWsGo_chars hall [] s, List.nil_append]
  exact splitWsGo_token ht hs

theorem splitWhitespace_space_cons (s : List Char) :
    splitWhitespace (' ' :: s) = splitWhitespace s := by
  unfold splitWhitespace
  rw [splitWsGo, if_pos (by decide)]
  rfl

theorem splitWhitespace_join {E : List (List Char)}
    (hE : ∀ t ∈ E, t ≠ [] ∧ ∀ c ∈ t, isSpaceRx c = false) :
    splitWhitespace (joinSpace E) = E := by
  induction E with
  | nil => rfl
  | cons t ts ih =>
    obtain ⟨htne, htall⟩ := hE t (List.mem_cons_self t ts)
    cases ts with
    | nil =>
      rw [joinSpace_single]
      have := splitWhitespace_token_append (s := []) htne htall
        (by intro c s' h; cases h)
      rw [List.append_nil] at this
      rw [this]
      rfl
    | cons t2 ts' =>
      rw [joinSpace_cons2]
      rw [splitWhitespace_token_append htne htall (by
        intro c s' h
        injection h with h1 _
        subst h1
        decide)]
      rw [splitWhitespace_space_cons]
      rw [ih (fun x hx => hE x (List.mem_cons_of_mem t hx))]

theorem splitWhitespace_space_join {E : List (List Char)}
    (hE : ∀ t ∈ E, t ≠ [] ∧ ∀ c ∈ t, isSpaceRx c = false) :
    splitWhitespace (' ' :: joinSpace E) = E := by
  rw [splitWhitespace_space_cons, splitWhitespace_join hE]

theorem joinSpace_chars {E : List (List Char)} {c : Char} (h : c ∈ joinSpace E) :
    (∃ t ∈ E, c ∈ t) ∨ c = ' ' := by
  induction E with
  | nil => simp [joinSpace] at h
  | cons t ts ih =>
    cases ts with
    | nil =>
      simp only [joinSpace] at h
      exact Or.inl ⟨t, List.mem_cons_self t [], h⟩
    | cons t2 ts' =>
      rw [joinSpace_cons2] at h
      rcases List.mem_append.mp h with h | h
      · exact Or.inl ⟨t, List.mem_cons_self _ _, h⟩
      · rcases List.mem_cons.mp h with h | h
        · exact Or.inr h
        · rcases ih h with ⟨u, hu, hc⟩ | h
          · exact Or.inl ⟨u, List.mem_cons_of_mem t hu, hc⟩
          · exact Or.inr h

theorem linesGo_append_nl {l : List Char} (hl : ∀ c ∈ l, c ≠ '\n') :
    ∀ (cur rest : List Char),
      linesGo cur (l ++ '\n' :: rest) = stripTrailCR (cur ++ l) :: linesGo [] rest := by
  induction l with
  | nil =>
    intro cur rest
    rw [List.nil_append, linesGo, if_pos rfl, List.append_nil]
  | cons c l' ih =>
    intro cur rest
    have hc : c ≠ '\n' := hl c (List.mem_cons_self c l')
    rw [List.cons_append, linesGo, if_neg hc,
      ih (fun x hx => hl x (List.mem_cons_of_mem c hx)) (cur ++ [c]) rest]
    congr 2
    simp

theorem linesGo_no_nl {l : List Char} (hl : ∀ c ∈ l, c ≠ '\n') :
    ∀ cur : List Char, linesGo cur l = if (cur ++ l).isEmpty then [] else [cur ++ l] := by
  induction l with
  | nil => intro cur; rw [linesGo, List.append_nil]
  | cons c l' ih =>
    intro cur
    have hc : c ≠ '\n' := hl c (List.mem_cons_self c l')
    rw [linesGo, if_neg hc, ih (fun x hx => hl x (List.mem_cons_of_mem c hx)) (cur ++ [c])]
    simp

theorem stripTrailCR_of_no_cr {l : List Char} (h : l.getLast? ≠ some '\r') :
    stripTrailCR l = l := by
  unfold stripTrailCR
  cases hl : l.getLast? with
  | none => rfl
  | some c =>
    show (if c = '\r' then l.dropLast else l) = l
    rw [if_neg]
    intro he
    subst he
    exact h hl

theorem stripTrailCR_subset {l : List Char} {x : Char} (hx : x ∈ stripTrailCR l) : x ∈ l := by
  unfold stripTrailCR at hx
  cases hl : l.getLast? with
  | none => rw [hl] at hx; exact hx
  | some c =>
    rw [hl] at hx
    have hx' : x ∈ (if c = '\r' then l.dropLast else l) := hx
    by_cases hc : c = '\r'
    · rw [if_pos hc] at hx'
      exact List.dropLast_subset _ hx'
    · rw [if_neg hc] at hx'
      exact hx'

/-- The lines of a block of newline-terminated lines are those lines, when no
line contains a newline or ends with a carriage return. -/

theorem linesOf_flatten {xs : List (List Char)}
    (h : ∀ l ∈ xs, (∀ c ∈ l, c ≠ '\n') ∧ l.getLast? ≠ some '\r') :
    linesOf ((xs.map (fun l => l ++ ['\n'])).flatten) = xs := by
  induction xs with
  | nil => rfl
  | cons l xs' ih =>
    obtain ⟨hnl, hcr⟩ := h l (List.mem_cons_self l xs')
    have : (((l :: xs').map (fun l => l ++ ['\n'])).flatten) =
        l ++ '\n' :: ((xs'.map (fun l => l ++ ['\n'])).flatten) := by
      simp
    rw [linesOf, this, linesGo_append_nl hnl, List.nil_append, stripTrailCR_of_no_cr hcr]
    congr 1
    exact ih (fun x hx => h x (List.mem_cons_of_mem l hx))

/-- Every produced line is free of newline characters. -/

theorem linesOf_no_nl {s : List Char} : ∀ l ∈ linesOf s, ∀ c ∈ l, c ≠ '\n' := by
  suffices H : ∀ (s cur : List Char), (∀ c ∈ cur, c ≠ '\n') →
      ∀ l ∈ linesGo cur s, ∀ c ∈ l, c ≠ '\n' by
    exact H s [] (by simp)
  intro s
  induction s with
  | nil =>
    intro cur hcur l hl
    rw [linesGo] at hl
    by_cases hc : cur.isEmpty
    · rw [if_pos hc] at hl; simp at hl
    · rw [if_neg hc] at hl
      rcases List.mem_singleton.mp hl with rfl
      exact hcur
  | cons c s' ih =>
    intro cur hcur l hl
    rw [linesGo] at hl
    by_cases hc : c = '\n'
    · rw [if_pos hc] at hl
      rcases List.mem_cons.mp hl with rfl | h
      · intro x hx
        exact hcur x (stripTrailCR_subset hx)
      · exact ih [] (by simp) l h
    · rw [if_neg hc] at hl
      refine ih (cur ++ [c]) ?_ l hl
      intro x hx
      rcases List.mem_append.mp hx with h | h
      · exact hcur x h
      · rcases List.mem_singleton.mp h with rfl
        exact hc

/-! ### Family prefix shapes -/

/-- The shape of a `prefix` capture of the family's partition-path pattern. -/

theorem prefix_shape {blk : LinuxBlockDevice} {name pre num : List Char}
    (h : linux_part_prefix_and_part_num blk name = .ok (pre, num)) :
    famShape blk pre ∧ num ≠ [] ∧ ∀ c ∈ num, isDigitRx c = true := by
  unfold linux_part_prefix_and_part_num at h
  cases hf : findRx (BLK_PART_REGEX blk) name with
  | none => rw [hf] at h; exact Except.noConfusion h
  | some chunks =>
    rw [hf] at h
    injection h with h
    obtain ⟨n, rem, hm⟩ := findRx_some hf
    have hfa := (matchSeq_sound _ _ _ _ hm).2
    cases blk with
    | SCSI =>
      cases hfa with | cons h0 hfa =>
      cases hfa with | cons h1 hfa =>
      cases hfa with | cons h2 hfa =>
      cases hfa
      obtain ⟨ch, rfl, hch⟩ := h1
      obtain ⟨hne, hall⟩ := h2
      cases h
      refine ⟨⟨ch, hch, ?_⟩, hne, hall⟩
      rw [h0]
      simp
    | VIRT =>
      cases hfa with | cons h0 hfa =>
      cases hfa with | cons h1 hfa =>
      cases hfa with | cons h2 hfa =>
      cases hfa
      obtain ⟨ch, rfl, hch⟩ := h1
      obtain ⟨hne, hall⟩ := h2
      cases h
      refine ⟨⟨ch, hch, ?_⟩, hne, hall⟩
      rw [h0]
      simp
    | MMCBLK =>
      cases hfa with | cons h0 hfa =>
      cases hfa with | cons h1 hfa =>
      cases hfa with | cons h2 hfa =>
      cases hfa with | cons h3 hfa =>
      cases hfa
      obtain ⟨hne1, hall1⟩ := h1
      obtain ⟨hne3, hall3⟩ := h3
      cases h
      refine ⟨⟨_, hne1, hall1, ?_⟩, hne3, hall3⟩
      rw [h0, h2]
      simp
    | NVME =>
      cases hfa with | cons h0 hfa =>
      cases hfa with | cons h1 hfa =>
      cases hfa with | cons h2 hfa =>
      cases hfa with | cons h3 hfa =>
      cases hfa with | cons h4 hfa =>
      cases hfa with | cons h5 hfa =>
      cases hfa
      obtain ⟨hne1, hall1⟩ := h1
      obtain ⟨hne3, hall3⟩ := h3
      obtain ⟨hne5, hall5⟩ := h5
      cases h
      refine ⟨⟨_, _, hne1, hne3, hall1, hall3, ?_⟩, hne5, hall5⟩
      rw [h0, h2, h4]
      simp

/-- On a name of the shape `prefix ++ digits`, extraction returns exactly
that prefix and that digit string. -/

theorem extract_shape {blk : LinuxBlockDevice} {pre : List Char} (hs : famShape blk pre)
    {ds : List Char} (hne : ds ≠ []) (hds : ∀ c ∈ ds, isDigitRx c = true) :
    linux_part_prefix_and_part_num blk (pre ++ ds) = .ok (pre, ds) := by
  have hdigits : matchSeq [.plus isDigitRx] ds = some ([ds], []) := by
    have := matchSeq_plus_run hne hds (by simp) (matchSeq_nil [])
    simpa using this
  cases blk with
  | SCSI =>
    obtain ⟨c, hc, rfl⟩ := hs
    have h2 : matchSeq [.cls isLowerAz, .plus isDigitRx] (c :: ds) =
        some ([[c], ds], []) := matchSeq_cls_pre hc hdigits
    have h1 := matchSeq_lit_pre (t := strL "/dev/sd") h2
    have heq : strL "/dev/sd" ++ [c] ++ ds = strL "/dev/sd" ++ (c :: ds) := by simp
    rw [heq]
    unfold linux_part_prefix_and_part_num
    rw [findRx_at_zero (by exact h1)]
    simp
  | VIRT =>
    obtain ⟨c, hc, rfl⟩ := hs
    have h2 : matchSeq [.cls isLowerAz, .plus isDigitRx] (c :: ds) =
        some ([[c], ds], []) := matchSeq_cls_pre hc hdigits
    have h1 := matchSeq_lit_pre (t := strL "/dev/vd") h2
    have heq : strL "/dev/vd" ++ [c] ++ ds = strL "/dev/vd" ++ (c :: ds) := by simp
    rw [heq]
    unfold linux_part_prefix_and_part_num
    rw [findRx_at_zero (by exact h1)]
    simp
  | MMCBLK =>
    obtain ⟨d1, hne1, hall1, rfl⟩ := hs
    have h3 : matchSeq [.lit (strL "p"), .plus isDigitRx] (strL "p" ++ ds) =
        some ([strL "p", ds], []) := matchSeq_lit_pre hdigits
    have h2 : matchSeq [.plus isDigitRx, .lit (strL "p"), .plus isDigitRx]
        (d1 ++ (strL "p" ++ ds)) = some ([d1, strL "p", ds], []) :=
      matchSeq_plus_run hne1 hall1 (by
        show List.takeWhile isDigitRx ('p' :: ds) = []
        rw [List.takeWhile_cons_of_neg (by decide)]) h3
    have h1 := matchSeq_lit_pre (t := strL "/dev/mmcblk") h2
    have heq : strL "/dev/mmcblk" ++ d1 ++ strL "p" ++ ds =
        strL "/dev/mmcblk" ++ (d1 ++ (strL "p" ++ ds)) := by simp
    rw [heq]
    unfold linux_part_prefix_and_part_num
    rw [findRx_at_zero (by exact h1)]
    simp
  | NVME =>
    obtain ⟨d1, d2, hne1, hne2, hall1, hall2, rfl⟩ := hs
    have h5 : matchSeq [.lit (strL "p"), .plus isDigitRx] (strL "p" ++ ds) =
        some ([strL "p", ds], []) := matchSeq_lit_pre hdigits
    have h4 : matchSeq [.plus isDigitRx, .lit (strL "p"), .plus isDigitRx]
        (d2 ++ (strL "p" ++ ds)) = some ([d2, strL "p", ds], []) :=
      matchSeq_plus_run hne2 hall2 (by
        show List.takeWhile isDigitRx ('p' :: ds) = []
        rw [List.takeWhile_cons_of_neg (by decide)]) h5
    have h3 : matchSeq [.lit (strL "n"), .plus isDigitRx, .lit (strL "p"), .plus isDigitRx]
        (strL "n" ++ (d2 ++ (strL "p" ++ ds))) =
        some ([strL "n", d2, strL "p", ds], []) := matchSeq_lit_pre h4
    have h2 : matchSeq [.plus isDigitRx, .lit (strL "n"), .plus isDigitRx,
        .lit (strL "p"), .plus isDigitRx] (d1 ++ (strL "n" ++ (d2 ++ (strL "p" ++ ds)))) =
        some ([d1, strL "n", d2, strL "p", ds], []) :=
      matchSeq_plus_run hne1 hall1 (by
        show List.takeWhile isDigitRx ('n' :: (d2 ++ (strL "p" ++ ds))) = []
        rw [List.takeWhile_cons_of_neg (by decide)]) h3
    have h1 := matchSeq_lit_pre (t := strL "/dev/nvme") h2
    have heq : strL "/dev/nvme" ++ d1 ++ strL "n" ++ d2 ++ strL "p" ++ ds =
        strL "/dev/nvme" ++ (d1 ++ (strL "n" ++ (d2 ++ (strL "p" ++ ds)))) := by simp
    rw [heq]
    unfold linux_part_prefix_and_part_num
    rw [findRx_at_zero (by exact h1)]
    simp

/-- A name of the shape `prefix ++ suffix` also matches the family's bare-name
pattern (used by the rearrange loop's pre-check). -/

theorem bare_of_shape {blk : LinuxBlockDevice} {pre : List Char} (hs : famShape blk pre)
    (ds : List Char) : rxMatch (BLK_REGEX blk) (pre ++ ds) = true := by
  unfold rxMatch
  cases blk with
  | SCSI =>
    obtain ⟨c, hc, rfl⟩ := hs
    have h2 : matchSeq [.cls isLowerAz] (c :: ds) = some ([[c]], ds) :=
      matchSeq_cls_pre hc (matchSeq_nil ds)
    have h1 := matchSeq_lit_pre (t := strL "sd") h2
    have heq : strL "/dev/sd" ++ [c] ++ ds = strL "/dev/" ++ (strL "sd" ++ (c :: ds)) := by
      simp [strL]
    have hdrop : (strL "/dev/sd" ++ [c] ++ ds).drop 5 = strL "sd" ++ (c :: ds) := by
      rw [heq]
      exact List.drop_left' (by decide)
    exact findRx_isSome_of (s := strL "/dev/sd" ++ [c] ++ ds) (n := 5)
      (by rw [hdrop]; exact h1)
  | VIRT =>
    obtain ⟨c, hc, rfl⟩ := hs
    have h2 : matchSeq [.cls isLowerAz] (c :: ds) = some ([[c]], ds) :=
      matchSeq_cls_pre hc (matchSeq_nil ds)
    have h1 := matchSeq_lit_pre (t := strL "vd") h2
    have heq : strL "/dev/vd" ++ [c] ++ ds = strL "/dev/" ++ (strL "vd" ++ (c :: ds)) := by
      simp [strL]
    have hdrop : (strL "/dev/vd" ++ [c] ++ ds).drop 5 = strL "vd" ++ (c :: ds) := by
      rw [heq]
      exact List.drop_left' (by decide)
    exact findRx_isSome_of (s := strL "/dev/vd" ++ [c] ++ ds) (n := 5)
      (by rw [hdrop]; exact h1)
  | MMCBLK =>
    obtain ⟨d1, hne1, hall1, rfl⟩ := hs
    have h2 : matchSeq [.plus isDigitRx] (d1 ++ (strL "p" ++ ds)) =
        some ([d1], strL "p" ++ ds) :=
      matchSeq_plus_run hne1 hall1 (by
        show List.takeWhile isDigitRx ('p' :: ds) = []
        rw [List.takeWhile_cons_of_neg (by decide)]) (matchSeq_nil _)
    have h1 := matchSeq_lit_pre (t := strL "mmcblk") h2
    have heq : strL "/dev/mmcblk" ++ d1 ++ strL "p" ++ ds =
        strL "/dev/" ++ (strL "mmcblk" ++ (d1 ++ (strL "p" ++ ds))) := by
      simp [strL]
    have hdrop : (strL "/dev/mmcblk" ++ d1 ++ strL "p" ++ ds).drop 5 =
        strL "mmcblk" ++ (d1 ++ (strL "p" ++ ds)) := by
      rw [heq]
      exact List.drop_left' (by decide)
    exact findRx_isSome_of (s := strL "/dev/mmcblk" ++ d1 ++ strL "p" ++ ds) (n := 5)
      (by rw [hdrop]; exact h1)
  | NVME =>
    obtain ⟨d1, d2, hne1, hne2, hall1, hall2, rfl⟩ := hs
    have h4 : matchSeq [.plus isDigitRx] (d2 ++ (strL "p" ++ ds)) =
        some ([d2], strL "p" ++ ds) :=
      matchSeq_plus_run hne2 hall2 (by
        show List.takeWhile isDigitRx ('p' :: ds) = []
        rw [List.takeWhile_cons_of_neg (by decide)]) (matchSeq_nil _)
    have h3 : matchSeq [.lit (strL "n"), .plus isDigitRx]
        (strL "n" ++ (d2 ++ (strL "p" ++ ds))) = some ([strL "n", d2], strL "p" ++ ds) :=
      matchSeq_lit_pre h4
    have h2 : matchSeq [.plus isDigitRx, .lit (strL "n"), .plus isDigitRx]
        (d1 ++ (strL "n" ++ (d2 ++ (strL "p" ++ ds)))) =
        some ([d1, strL "n", d2], strL "p" ++ ds) :=
      matchSeq_plus_run hne1 hall1 (by
        show List.takeWhile isDigitRx ('n' :: (d2 ++ (strL "p" ++ ds))) = []
        rw [List.takeWhile_cons_of_neg (by decide)]) h3
    have h1 := matchSeq_lit_pre (t := strL "nvme") h2
    have heq : strL "/dev/nvme" ++ d1 ++ strL "n" ++ d2 ++ strL "p" ++ ds =
        strL "/dev/" ++ (strL "nvme" ++ (d1 ++ (strL "n" ++ (d2 ++ (strL "p" ++ ds))))) := by
      simp [strL]
    have hdrop : (strL "/dev/nvme" ++ d1 ++ strL "n" ++ d2 ++ strL "p" ++ ds).drop 5 =
        strL "nvme" ++ (d1 ++ (strL "n" ++ (d2 ++ (strL "p" ++ ds)))) := by
      rw [heq]
      exact List.drop_left' (by decide)
    exact findRx_isSome_of
      (s := strL "/dev/nvme" ++ d1 ++ strL "n" ++ d2 ++ strL "p" ++ ds) (n := 5)
      (by rw [hdrop]; exact h1)

/-! ### The rearrange loop -/

theorem redesignate_of_extract {p : Partition} {blk : LinuxBlockDevice}
    {pre num : List Char} {k : Nat}
    (h : linux_part_prefix_and_part_num blk p.name = .ok (pre, num)) :
    p.redesignate blk k = .ok { p with name := pre ++ numChars k, designation := k } := by
  unfold Partition.redesignate
  rw [h]

/-- Characterization of a successful redesignation loop. -/

theorem rearrangeLoop_ok_spec {blk : LinuxBlockDevice} :
    ∀ {i : Nat} {ps qs : List Partition}, rearrangeLoop blk i ps = .ok qs →
      qs.map Partition.designation = List.range' (i + 1) ps.length ∧
      List.Forall₂ (fun p q => ∃ pre num,
        linux_part_prefix_and_part_num blk p.name = .ok (pre, num) ∧
        q.start_block = p.start_block ∧ q.extras = p.extras ∧
        q.name = pre ++ numChars q.designation) ps qs := by
  intro i ps
  induction ps generalizing i with
  | nil =>
    intro qs h
    rw [rearrangeLoop] at h
    injection h with h
    subst h
    simp [List.Forall₂]
  | cons p ps' ih =>
    intro qs h
    rw [rearrangeLoop] at h
    by_cases hb : rxMatch (BLK_REGEX blk) p.name
    · rw [if_pos hb] at h
      cases hr : p.redesignate blk (i + 1) with
      | error e => rw [hr] at h; exact Except.noConfusion h
      | ok p' =>
        rw [hr] at h
        cases hrec : rearrangeLoop blk (i + 1) ps' with
        | error e => rw [hrec] at h; exact Except.noConfusion h
        | ok qs' =>
          rw [hrec] at h
          injection h with h
          subst h
          obtain ⟨hmap, hfa⟩ := ih hrec
          unfold Partition.redesignate at hr
          cases hx : linux_part_prefix_and_part_num blk p.name with
          | error e => rw [hx] at hr; exact Except.noConfusion hr
          | ok pn =>
            rw [hx] at hr
            injection hr with hr
            subst hr
            constructor
            · simp only [List.map_cons, hmap, List.length_cons]
              rw [List.range'_succ]
            · exact List.Forall₂.cons
                ⟨pn.1, pn.2, by rw [hx], rfl, rfl, rfl⟩ hfa
    · rw [if_neg hb] at h
      exact Except.noConfusion h

/-- A successful redesignation loop is idempotent. -/

theorem rearrangeLoop_idem {blk : LinuxBlockDevice} :
    ∀ {i : Nat} {ps qs : List Partition}, rearrangeLoop blk i ps = .ok qs →
      rearrangeLoop blk i qs = .ok qs := by
  intro i ps
  induction ps generalizing i with
  | nil =>
    intro qs h
    rw [rearrangeLoop] at h
    injection h with h
    subst h
    rfl
  | cons p ps' ih =>
    intro qs h
    rw [rearrangeLoop] at h
    by_cases hb : rxMatch (BLK_REGEX blk) p.name
    · rw [if_pos hb] at h
      cases hr : p.redesignate blk (i + 1) with
      | error e => rw [hr] at h; exact Except.noConfusion h
      | ok p' =>
        rw [hr] at h
        cases hrec : rearrangeLoop blk (i + 1) ps' with
        | error e => rw [hrec] at h; exact Except.noConfusion h
        | ok qs' =>
          rw [hrec] at h
          injection h with h
          subst h
          unfold Partition.redesignate at hr
          cases hx : linux_part_prefix_and_part_num blk p.name with
          | error e => rw [hx] at hr; exact Except.noConfusion hr
          | ok pn =>
            rw [hx] at hr
            injection hr with hr
            subst hr
            have hok : linux_part_prefix_and_part_num blk p.name = .ok (pn.1, pn.2) := by
              rw [hx]
            have hshape := (prefix_shape hok).1
            have hext : linux_part_prefix_and_part_num blk
                (pn.1 ++ numChars (i + 1)) = .ok (pn.1, numChars (i + 1)) :=
              extract_shape hshape (numChars_ne_nil _) (numChars_all_digit _)
            rw [rearrangeLoop, if_pos (bare_of_shape hshape (numChars (i + 1)))]
            rw [redesignate_of_extract (by exact hext)]
            rw [ih hrec]
            rfl
    · rw [if_neg hb] at h
      exact Except.noConfusion h

/-- Transfer sortedness through a start-block preserving `Forall₂`. -/

theorem pairwise_lePart_transfer :
    ∀ {ps qs : List Partition},
      List.Forall₂ (fun p q => q.start_block = p.start_block) ps qs →
      ps.Pairwise lePart → qs.Pairwise lePart := by
  intro ps
  induction ps with
  | nil =>
    intro qs h _
    cases h
    exact List.Pairwise.nil
  | cons p ps' ih =>
    intro qs h hp
    cases h with
    | cons hpq hfa =>
      rename_i q qs'
      cases hp with
      | cons hrel hp' =>
        refine List.Pairwise.cons ?_ (ih hfa hp')
        intro b hb
        obtain ⟨a, ha, hab⟩ : ∃ a ∈ ps', b.start_block = a.start_block := by
          clear hrel hp' ih
          induction hfa with
          | nil => simp at hb
          | cons h1 h2 ih2 =>
            rcases List.mem_cons.mp hb with rfl | hb'
            · exact ⟨_, List.mem_cons_self _ _, h1⟩
            · obtain ⟨a, ha, hab⟩ := ih2 hb'
              exact ⟨a, List.mem_cons_of_mem _ ha, hab⟩
        have h1 := hrel a ha
        simp only [lePart] at h1 ⊢
        omega

theorem forall₂_mem_right {R : α → β → Prop} :
    ∀ {l₁ : List α} {l₂ : List β}, List.Forall₂ R l₁ l₂ → ∀ b ∈ l₂, ∃ a ∈ l₁, R a b := by
  intro l₁ l₂ h
  induction h with
  | nil => simp
  | cons h1 _ ih =>
    intro b hb
    rcases List.mem_cons.mp hb with rfl | hb'
    · exact ⟨_, List.mem_cons_self _ _, h1⟩
    · obtain ⟨a, ha, hab⟩ := ih b hb'
      exact ⟨a, List.mem_cons_of_mem _ ha, hab⟩

theorem forall₂_map_eq {R : α → β → Prop} {f : α → γ} {g : β → γ}
    (hfg : ∀ a b, R a b → g b = f a) :
    ∀ {l₁ : List α} {l₂ : List β}, List.Forall₂ R l₁ l₂ → l₂.map g = l₁.map f := by
  intro l₁ l₂ h
  induction h with
  | nil => rfl
  | cons h1 _ ih => simp [ih, hfg _ _ h1]

theorem forall₂_filter_map_extras {b : Nat} :
    ∀ {ps qs : List Partition},
      List.Forall₂ (fun p q => q.start_block = p.start_block ∧ q.extras = p.extras) ps qs →
      (qs.filter (fun p => p.start_block = b)).map Partition.extras =
      (ps.filter (fun p => p.start_block = b)).map Partition.extras := by
  intro ps qs h
  induction h with
  | nil => rfl
  | cons h1 _ ih =>
    rename_i p q ps' qs' _
    obtain ⟨hsb, hex⟩ := h1
    by_cases hpb : p.start_block = b
    · rw [List.filter_cons_of_pos (by simp only [decide_eq_true_eq]; omega),
        List.filter_cons_of_pos (by simp only [decide_eq_true_eq]; omega)]
      simp [hex, ih]
    · rw [List.filter_cons_of_neg (by simp only [decide_eq_true_eq]; omega),
        List.filter_cons_of_neg (by simp only [decide_eq_true_eq]; omega)]
      exact ih

/-- Stability of the sort: the partitions of a fixed start block appear in
the sorted list exactly as in the original list. -/

theorem insertionSort_filter_start (ps : List Partition) (b : Nat) :
    (List.insertionSort lePart ps).filter (fun p => p.start_block = b) =
      ps.filter (fun p => p.start_block = b) := by
  have hpw : (ps.filter (fun p => p.start_block = b)).Pairwise lePart := by
    refine List.pairwise_of_forall_mem_list ?_
    intro a ha c hc
    have ha' := (List.mem_filter.mp ha).2
    have hc' := (List.mem_filter.mp hc).2
    simp only [decide_eq_true_eq] at ha' hc'
    simp [lePart, ha', hc']
  have hsub : List.Sublist (ps.filter (fun p => p.start_block = b))
      (List.insertionSort lePart ps) :=
    List.sublist_insertionSort hpw (List.filter_sublist ps)
  have hsub2 : List.Sublist (ps.filter (fun p => p.start_block = b))
      ((List.insertionSort lePart ps).filter (fun p => p.start_block = b)) := by
    have h1 := hsub.filter (fun p => decide (p.start_block = b))
    have h2 : (ps.filter (fun p => decide (p.start_block = b))).filter
        (fun p => decide (p.start_block = b)) =
        ps.filter (fun p => decide (p.start_block = b)) :=
      List.filter_eq_self.mpr (fun a ha => (List.mem_filter.mp ha).2)
    rwa [h2] at h1
  have hperm : List.Perm ((List.insertionSort lePart ps).filter (fun p => p.start_block = b))
      (ps.filter (fun p => p.start_block = b)) :=
    (List.perm_insertionSort lePart ps).filter _
  exact (hsub2.eq_of_length hperm.length_eq.symm).symm

/-! ### Helper lemmas about classification -/

theorem linux_blk_name_some_unique {ord : List LinuxBlockDevice} {name : List Char}
    {b : LinuxBlockDevice} (hb : b ∈ ord) (hm : rxMatch (BLK_REGEX b) name = true)
    (huniq : ∀ b', rxMatch (BLK_REGEX b') name = true → b' = b) :
    linux_blk_name ord name = some b := by
  induction ord with
  | nil => simp at hb
  | cons x os ih =>
    unfold linux_blk_name
    rw [List.find?_cons]
    cases hx : rxMatch (BLK_REGEX x) name with
    | true => rw [huniq x hx]
    | false =>
      rcases List.mem_cons.mp hb with rfl | hb'
      · rw [hx] at hm; exact Bool.noConfusion hm
      · exact ih hb'

theorem linux_blk_name_of_no_match {ord : List LinuxBlockDevice} {name : List Char}
    (h : ∀ b, rxMatch (BLK_REGEX b) name = false) :
    linux_blk_name ord name = none :=
  List.find?_eq_none.mpr (fun x _ => by simp [h x])

/-! ### Concrete disks used by the claims -/

/-- The unsorted SCSI disk of the stability test (start blocks
2048, 2069, 2022, 1969). -/

theorem claim_C10 (d : Disk) (h : d.partitions = []) : d.rearrange = .ok d := by
  obtain ⟨nm, bl, hd, ps⟩ := d
  have h' : ps = [] := h
  subst h'
  unfold Disk.rearrange
  rfl

/-- Witness for C10 at a concrete empty disk. -/

theorem claim_C10_witness : emptyDisk.rearrange = .ok emptyDisk :=
  claim_C10 emptyDisk rfl

/-- Claim C8: `split_prefix_and_number` on `(/dev/sda1000, SCSI)`,
`(/dev/mmcblk10p20, MMCBLK)` and `(/dev/nvme0n1p1, NVME)` returns the listed
prefix/number pairs; the `p` infix belongs to the prefix exactly for MMCBLK
and NVME. -/

theorem claim_C8 :
    linux_part_prefix_and_part_num .SCSI (strL "/dev/sda1000") =
      .ok (strL "/dev/sda", strL "1000") ∧
    linux_part_prefix_and_part_num .MMCBLK (strL "/dev/mmcblk10p20") =
      .ok (strL "/dev/mmcblk10p", strL "20") ∧
    linux_part_prefix_and_part_num .NVME (strL "/dev/nvme0n1p1") =
      .ok (strL "/dev/nvme0n1p", strL "1") :=
  ⟨rfl, rfl, rfl⟩

/-- Claim C4 (amended): the source iterates the pattern map in an unspecified
(hash-map) order containing all four families.  For every such order the six
representative inputs classify as stated, and on any input matched by at most
one family the result does not depend on the order.  (As stated the claim is
false: the order is not the fixed priority {SCSI, VIRT, MMCBLK, NVME}, and on
inputs matched by several families the result depends on the order, see the
counterexample.) -/

theorem claim_C4 (ord : List LinuxBlockDevice) (hmem : ∀ b : LinuxBlockDevice, b ∈ ord) :
    linux_blk_name ord (strL "/dev/sda") = some .SCSI ∧
    linux_blk_name ord (strL "/dev/vda") = some .VIRT ∧
    linux_blk_name ord (strL "/dev/mmcblk0p1") = some .MMCBLK ∧
    linux_blk_name ord (strL "/dev/nvme0n1p1") = some .NVME ∧
    linux_blk_name ord (strL "/dev/nvme1") = none ∧
    linux_blk_name ord (strL "/dev/sd1") = none ∧
    (∀ name : List Char,
      (∀ b1 b2 : LinuxBlockDevice, rxMatch (BLK_REGEX b1) name = true →
        rxMatch (BLK_REGEX b2) name = true → b1 = b2) →
      ∀ ord2 : List LinuxBlockDevice, (∀ b : LinuxBlockDevice, b ∈ ord2) →
        linux_blk_name ord name = linux_blk_name ord2 name) := by
  refine ⟨?_, ?_, ?_, ?_, ?_, ?_, ?_⟩
  · refine linux_blk_name_some_unique (hmem _) (by decide) ?_
    intro b' hb'
    cases b' with
    | SCSI => rfl
    | VIRT => exact absurd hb' (by decide)
    | MMCBLK => exact absurd hb' (by decide)
    | NVME => exact absurd hb' (by decide)
  · refine linux_blk_name_some_unique (hmem _) (by decide) ?_
    intro b' hb'
    cases b' with
    | VIRT => rfl
    | SCSI => exact absurd hb' (by decide)
    | MMCBLK => exact absurd hb' (by decide)
    | NVME => exact absurd hb' (by decide)
  · refine linux_blk_name_some_unique (hmem _) (by decide) ?_
    intro b' hb'
    cases b' with
    | MMCBLK => rfl
    | SCSI => exact absurd hb' (by decide)
    | VIRT => exact absurd hb' (by decide)
    | NVME => exact absurd hb' (by decide)
  · refine linux_blk_name_some_unique (hmem _) (by decide) ?_
    intro b' hb'
    cases b' with
    | NVME => rfl
    | SCSI => exact absurd hb' (by decide)
    | VIRT => exact absurd hb' (by decide)
    | MMCBLK => exact absurd hb' (by decide)
  · refine linux_blk_name_of_no_match ?_
    intro b
    cases b <;> decide
  · refine linux_blk_name_of_no_match ?_
    intro b
    cases b <;> decide
  · intro name huniq ord2 hmem2
    by_cases hex : ∃ b, rxMatch (BLK_REGEX b) name = true
    · obtain ⟨b, hb⟩ := hex
      rw [linux_blk_name_some_unique (hmem b) hb (fun b' h' => huniq b' b h' hb),
        linux_blk_name_some_unique (hmem2 b) hb (fun b' h' => huniq b' b h' hb)]
    · push_neg at hex
      rw [linux_blk_name_of_no_match (fun b => by
          cases h : rxMatch (BLK_REGEX b) name with
          | false => rfl
          | true => exact absurd h (hex b)),
        linux_blk_name_of_no_match (fun b => by
          cases h : rxMatch (BLK_REGEX b) name with
          | false => rfl
          | true => exact absurd h (hex b))]

/-- Witness for C4 at the order named by the specification. -/

theorem claim_C4_witness :
    linux_blk_name scsiFirstOrder (strL "/dev/sda") = some LinuxBlockDevice.SCSI :=
  (claim_C4 scsiFirstOrder (by intro b; cases b <;> decide)).1

/-- Counterexample to C4 as stated: `/dev/sdavdb` is matched by both the SCSI
and the VIRT patterns, so the classification depends on the iteration order
of the pattern map — the code does not implement one fixed priority order and
is not deterministic across map orders. -/

theorem claim_C4_counterexample :
    linux_blk_name [.SCSI, .VIRT, .MMCBLK, .NVME] (strL "/dev/sdavdb") = some .SCSI ∧
    linux_blk_name [.VIRT, .SCSI, .MMCBLK, .NVME] (strL "/dev/sdavdb") = some .VIRT ∧
    (LinuxBlockDevice.SCSI ≠ LinuxBlockDevice.VIRT) :=
  ⟨rfl, rfl, by decide⟩

/-- Claim C9: rearrange is idempotent — on any disk on which it succeeds
(in particular on one whose partitions are already sorted), applying it a
second time reproduces exactly the same disk value. -/

theorem claim_C9 (d d' : Disk) (h : d.rearrange = .ok d') : d'.rearrange = .ok d' := by
  unfold Disk.rearrange at h ⊢
  cases hloop : rearrangeLoop d.linux_block_device 0
      (List.insertionSort lePart d.partitions) with
  | error e => rw [hloop] at h; exact Except.noConfusion h
  | ok qs =>
    rw [hloop] at h
    injection h with h
    subst h
    have hfa := (rearrangeLoop_ok_spec hloop).2
    have hstart : List.Forall₂ (fun p q => q.start_block = p.start_block)
        (List.insertionSort lePart d.partitions) qs :=
      hfa.imp (fun a b hr => by obtain ⟨_, _, _, hsb, _, _⟩ := hr; exact hsb)
    have hsorted_qs : List.Sorted lePart qs :=
      pairwise_lePart_transfer hstart (List.sorted_insertionSort lePart d.partitions)
    show Except.map _ (rearrangeLoop _ 0 (List.insertionSort lePart qs)) = _
    rw [hsorted_qs.insertionSort_eq, rearrangeLoop_idem hloop]
    rfl

/-- Witness for C9 at the concrete stability example. -/

theorem claim_C9_witness : sdaSorted.rearrange = .ok sdaSorted :=
  claim_C9 sdaUnsorted sdaSorted (by rfl)

/-- Claim C7: a successful rearrange changes only the order of the partitions
sequence and the `name`/`designation` fields: each partition of the result
has exactly the `start_block` and `extras` of the corresponding partition of
the stable-sorted original sequence (which is a permutation of the original),
and the disk's `name`, family and `header_lines` are unchanged. -/

theorem claim_C7 (d d' : Disk) (h : d.rearrange = .ok d') :
    d'.name = d.name ∧ d'.linux_block_device = d.linux_block_device ∧
    d'.header_lines = d.header_lines ∧
    d'.partitions.map (fun p => (p.start_block, p.extras)) =
      (List.insertionSort lePart d.partitions).map (fun p => (p.start_block, p.extras)) ∧
    List.Perm (List.insertionSort lePart d.partitions) d.partitions := by
  unfold Disk.rearrange at h
  cases hloop : rearrangeLoop d.linux_block_device 0
      (List.insertionSort lePart d.partitions) with
  | error e => rw [hloop] at h; exact Except.noConfusion h
  | ok qs =>
    rw [hloop] at h
    injection h with h
    subst h
    have hfa := (rearrangeLoop_ok_spec hloop).2
    refine ⟨rfl, rfl, rfl, ?_, List.perm_insertionSort lePart d.partitions⟩
    exact forall₂_map_eq (fun p q hr => by
      obtain ⟨_, _, _, hsb, hex, _⟩ := hr
      rw [hsb, hex]) hfa

/-- Witness for C7 at the concrete stability example. -/

theorem claim_C7_witness : sdaSorted.name = sdaUnsorted.name :=
  (claim_C7 sdaUnsorted sdaSorted (by rfl)).1

/-- Claim C1: rearrange stable-sorts the partitions by `start_block`
ascending (the multiset of `(start_block, extras)` pairs is preserved, the
result is sorted, and partitions of equal start block keep their original
relative order), assigns designation `i+1` to the partition at sorted index
`i`, and renames it to the captured family prefix of its pre-redesignation
name followed by `i+1`; on the concrete SCSI example with start blocks
`[2048, 2069, 2022, 1969]` the result is `[1969, 2022, 2048, 2069]` with
designations `[1, 2, 3, 4]` and names `/dev/sda1`..`/dev/sda4`. -/

theorem claim_C1 :
    (∀ (d d' : Disk), d.rearrange = .ok d' →
      (d'.partitions.map (fun p => p.start_block)).Pairwise (fun a b => a ≤ b) ∧
      List.Perm (d'.partitions.map (fun p => (p.start_block, p.extras)))
        (d.partitions.map (fun p => (p.start_block, p.extras))) ∧
      (∀ b : Nat, ((d'.partitions.filter (fun p => p.start_block = b)).map
          Partition.extras) =
        ((d.partitions.filter (fun p => p.start_block = b)).map Partition.extras)) ∧
      d'.partitions.map Partition.designation = List.range' 1 d.partitions.length ∧
      List.Forall₂ (fun p q => ∃ pre num,
          linux_part_prefix_and_part_num d.linux_block_device p.name = .ok (pre, num) ∧
          q.name = pre ++ numChars q.designation)
        (List.insertionSort lePart d.partitions) d'.partitions) ∧
    sdaUnsorted.rearrange = .ok sdaSorted := by
  constructor
  · intro d d' h
    unfold Disk.rearrange at h
    cases hloop : rearrangeLoop d.linux_block_device 0
        (List.insertionSort lePart d.partitions) with
    | error e => rw [hloop] at h; exact Except.noConfusion h
    | ok qs =>
      rw [hloop] at h
      injection h with h
      subst h
      obtain ⟨hdes, hfa⟩ := rearrangeLoop_ok_spec hloop
      refine ⟨?_, ?_, ?_, ?_, ?_⟩
      · have hstart : qs.map (fun p => p.start_block) =
            (List.insertionSort lePart d.partitions).map (fun p => p.start_block) :=
          forall₂_map_eq (fun p q hr => by
            obtain ⟨_, _, _, hsb, _, _⟩ := hr
            rw [hsb]) hfa
        rw [hstart, List.pairwise_map]
        exact List.sorted_insertionSort lePart d.partitions
      · have hpairs : qs.map (fun p => (p.start_block, p.extras)) =
            (List.insertionSort lePart d.partitions).map
              (fun p => (p.start_block, p.extras)) :=
          forall₂_map_eq (fun p q hr => by
            obtain ⟨_, _, _, hsb, hex, _⟩ := hr
            rw [hsb, hex]) hfa
        rw [hpairs]
        exact (List.perm_insertionSort lePart d.partitions).map _
      · intro b
        have h1 := forall₂_filter_map_extras (b := b)
          (hfa.imp (fun a b' hr => by
            obtain ⟨_, _, _, hsb, hex, _⟩ := hr
            exact ⟨hsb, hex⟩))
        rw [h1, insertionSort_filter_start]
      · rw [hdes, List.length_insertionSort]
      · exact hfa.imp (fun a b hr => by
          obtain ⟨pre, num, hok, _, _, hnm⟩ := hr
          exact ⟨pre, num, hok, hnm⟩)
  · rfl

/-- Witness for C1: its general part applied at the concrete example. -/

theorem claim_C1_witness :
    (sdaSorted.partitions.map (fun p => p.start_block)).Pairwise (fun a b => a ≤ b) :=
  (claim_C1.1 sdaUnsorted sdaSorted (by rfl)).1

theorem rxMatch_of_extract {blk : LinuxBlockDevice} {nm : List Char}
    {pr : List Char × List Char}
    (h : linux_part_prefix_and_part_num blk nm = .ok pr) :
    rxMatch (BLK_PART_REGEX blk) nm = true := by
  unfold linux_part_prefix_and_part_num at h
  unfold rxMatch
  cases hf : findRx (BLK_PART_REGEX blk) nm with
  | none => rw [hf] at h; exact Except.noConfusion h
  | some chunks => rfl

/-- Claim C6 (amended): a successful parse does not establish the name
invariant (see the counterexample); the invariant that every partition name
matches the owning disk family's partition-path pattern is checked by
`rearrange`, and it holds for every partition of a successfully rearranged
disk. -/

theorem claim_C6 (d d' : Disk) (h : d.rearrange = .ok d') :
    ∀ p ∈ d'.partitions, rxMatch (BLK_PART_REGEX d'.linux_block_device) p.name = true := by
  unfold Disk.rearrange at h
  cases hloop : rearrangeLoop d.linux_block_device 0
      (List.insertionSort lePart d.partitions) with
  | error e => rw [hloop] at h; exact Except.noConfusion h
  | ok qs =>
    rw [hloop] at h
    injection h with h
    subst h
    intro q hq
    obtain ⟨p, _, hr⟩ := forall₂_mem_right (rearrangeLoop_ok_spec hloop).2 q hq
    obtain ⟨pre, num, hok, _, _, hnm⟩ := hr
    have hshape := (prefix_shape hok).1
    have hext := extract_shape hshape (numChars_ne_nil q.designation)
      (numChars_all_digit q.designation)
    have : linux_part_prefix_and_part_num d.linux_block_device q.name =
        .ok (pre, numChars q.designation) := by
      rw [hnm]
      exact hext
    exact rxMatch_of_extract this

/-- The disk parsed from the C6 counterexample dump: a SCSI disk holding a
partition named `/dev/vdb9`. -/

theorem claim_C6_counterexample :
    parse_sfdisk_full_disk scsiFirstOrder
      (strL "device: /dev/sda\n/dev/vdb9 : start= 1, x") = .ok c6Disk ∧
    rxMatch (BLK_PART_REGEX c6Disk.linux_block_device)
      (strL "/dev/vdb9") = false :=
  ⟨rfl, rfl⟩

/-- Witness for C6 at the concrete stability example. -/

theorem claim_C6_witness :
    rxMatch (BLK_PART_REGEX sdaSorted.linux_block_device)
      (Partition.mk 1 1969 (strL "/dev/sda1") []).name = true :=
  claim_C6 sdaUnsorted sdaSorted (by rfl)
    (Partition.mk 1 1969 (strL "/dev/sda1") []) (by decide)

/-! ### Shape of a parsed partition line -/

theorem matchSeq_lit_inv {t : List Char} {as : List RAtom} {s : List Char}
    {cs : List (List Char)} {rem : List Char}
    (h : matchSeq (.lit t :: as) s = some (cs, rem)) :
    ∃ u cs', s = t ++ u ∧ cs = t :: cs' ∧ matchSeq as u = some (cs', rem) := by
  rw [matchSeq_lit] at h
  by_cases hs : startsWith t s
  · rw [if_pos hs] at h
    obtain ⟨u, rfl⟩ := startsWith_iff.mp hs
    rw [List.drop_left] at h
    cases hm : matchSeq as u with
    | none => rw [hm] at h; exact Option.noConfusion h
    | some r =>
      rw [hm] at h
      simp only [Option.map_some'] at h
      cases h
      exact ⟨u, r.1, rfl, rfl, by rw [hm]⟩
  · rw [if_neg hs] at h
    exact Option.noConfusion h

theorem le_length_takeWhile_of_take_all {p : Char → Bool} :
    ∀ {u : List Char} {m : Nat}, m ≤ u.length → (∀ c ∈ u.take m, p c = true) →
      m ≤ (u.takeWhile p).length := by
  intro u
  induction u with
  | nil => intro m hm _; simpa using hm
  | cons a u' ih =>
    intro m hm hall
    cases m with
    | zero => exact Nat.zero_le _
    | succ k =>
      have ha : p a = true := hall a (by rw [List.take_succ_cons]; exact List.mem_cons_self _ _)
      rw [List.takeWhile_cons_of_pos ha]
      simp only [List.length_cons]
      have hk := ih (m := k) (by simpa using hm)
        (fun c hc => hall c (by rw [List.take_succ_cons]; exact List.mem_cons_of_mem _ hc))
      omega

/-- Every successfully parsed partition line yields a name of the form
`/dev/<word-run><digit>` where the final character is the single digit
captured as `part_num` (the greedy `\w+` group absorbs all preceding
characters, digits included); the designation is the value of that single
digit. -/

theorem parse_partition_shape {line : List Char} {p : Partition}
    (h : parse_sfdisk_partition_line line = some p) :
    ∃ (w : List Char) (c : Char) (sb rest : List Char),
      p.name = strL "/dev/" ++ w ++ [c] ∧ w ≠ [] ∧ (∀ x ∈ w, isWordRx x = true) ∧
      isDigitRx c = true ∧ p.designation = natOfDigits [c] ∧
      sb ≠ [] ∧ (∀ x ∈ sb, isDigitRx x = true) ∧ p.start_block = natOfDigits sb ∧
      p.extras = splitWhitespace rest ∧
      (∀ t ∈ p.extras, t ≠ [] ∧ ∀ x ∈ t, isSpaceRx x = false) := by
  unfold parse_sfdisk_partition_line at h
  cases hf : findRx SFDISK_PARTITION_LINE_PATTERN line with
  | none => rw [hf] at h; exact Option.noConfusion h
  | some chunks =>
    rw [hf] at h
    simp only [Option.map_some'] at h
    obtain ⟨n, rem, hm⟩ := findRx_some hf
    -- peel the leading literal and the two greedy repetitions
    obtain ⟨s1, cs1, hs0, hchunks, hm1⟩ := matchSeq_lit_inv hm
    obtain ⟨j1, cs2, hj11, hj1max, hcs1, hm2, hmax1⟩ := matchSeq_plus_inv hm1
    obtain ⟨j2, cs3, hj21, hj2max, hcs2, hm3, _⟩ := matchSeq_plus_inv hm2
    -- shapes of the remaining chunks, via soundness
    have hsound3 := matchSeq_sound _ _ _ _ hm3
    obtain ⟨hdec3, hfa3⟩ := hsound3
    -- the chunk after part_num is a nonempty run of whitespace
    cases hfa3 with | cons hsp3 hfa4 =>
    rename_i csp cs4
    obtain ⟨hspne, hspall⟩ := hsp3
    -- hence the input after the digits starts with a whitespace character
    have hdigbd : ((s1.drop j1).drop j2).takeWhile isDigitRx = [] := by
      rw [hdec3]
      cases hcsp : csp with
      | nil => exact absurd hcsp hspne
      | cons c0 csp' =>
        rw [hcsp] at hspall
        have hc0 : isSpaceRx c0 = true := hspall c0 (List.mem_cons_self _ _)
        have : isDigitRx c0 = false := by
          cases hd : isDigitRx c0 with
          | false => rfl
          | true => rw [isDigitRx_not_space hd] at hc0; exact Bool.noConfusion hc0
        simp only [hcsp, List.flatten_cons, List.cons_append, List.append_assoc]
        rw [List.takeWhile_cons_of_neg (by simp [this])]
    -- the part_num chunk is a single digit: otherwise the first repetition
    -- could have consumed one character more, contradicting greediness
    have hj2eq : j2 = 1 := by
      by_contra hne
      have hj2ge : 2 ≤ j2 := by omega
      have hlen2 : ((s1.drop j1).take j2).length = j2 := by
        have := (List.takeWhile_sublist (l := s1.drop j1) isDigitRx).length_le
        simp only [List.length_take, List.length_drop]
        have h2 : j2 ≤ (s1.drop j1).length := by
          have := (List.takeWhile_sublist (l := s1.drop j1) isDigitRx).length_le
          omega
        simp at h2 ⊢
        omega
      have hallw1 : ∀ c ∈ s1.take j1, isWordRx c = true :=
        take_of_le_takeWhile hj1max
      have halld2 : ∀ c ∈ (s1.drop j1).take j2, isDigitRx c = true :=
        take_of_le_takeWhile hj2max
      have hallw12 : ∀ c ∈ s1.take (j1 + j2), isWordRx c = true := by
        rw [List.take_add]
        intro c hc
        rcases List.mem_append.mp hc with hc | hc
        · exact hallw1 c hc
        · exact isDigitRx_isWordRx (halld2 c hc)
      have hjlen : j1 + j2 ≤ s1.length := by
        have h2 : j2 ≤ (s1.drop j1).length := by
          have := (List.takeWhile_sublist (l := s1.drop j1) isDigitRx).length_le
          omega
        simp only [List.length_drop] at h2
        omega
      have hj12 : j1 + j2 ≤ (s1.takeWhile isWordRx).length :=
        le_length_takeWhile_of_take_all hjlen hallw12
      have hmaxat := hmax1 (j1 + j2 - 1) (by omega) (by omega)
      -- but matching the digit repetition one position earlier succeeds:
      have hdropsplit : s1.drop (j1 + j2 - 1) =
          ((s1.drop j1).take j2).drop (j2 - 1) ++ (s1.drop j1).drop j2 := by
        have e1 : s1.drop (j1 + j2 - 1) = (s1.drop j1).drop (j2 - 1) := by
          rw [List.drop_drop]
          congr 1
          omega
        rw [e1]
        conv_lhs => rw [← List.take_append_drop j2 (s1.drop j1)]
        rw [List.drop_append_of_le_length (by rw [hlen2]; omega)]
      have hrun_ne : ((s1.drop j1).take j2).drop (j2 - 1) ≠ [] := by
        intro he
        have := congrArg List.length he
        rw [List.length_drop, hlen2] at this
        simp at this
        omega
      have hrun_all : ∀ c ∈ ((s1.drop j1).take j2).drop (j2 - 1), isDigitRx c = true :=
        fun c hc => halld2 c (List.mem_of_mem_drop hc)
      have := matchSeq_plus_run hrun_ne hrun_all hdigbd hm3
      rw [← hdropsplit] at this
      rw [hmaxat] at this
      exact Option.noConfusion this
    -- with j2 = 1, read off all the fields
    subst hj2eq
    obtain ⟨c, hc⟩ : ∃ c, (s1.drop j1).take 1 = [c] := by
      cases hs2 : s1.drop j1 with
      | nil =>
        exfalso
        have := hj2max
        rw [hs2] at this
        simp at this
      | cons c0 tl => exact ⟨c0, rfl⟩
    have hcdig : isDigitRx c = true := by
      have := take_of_le_takeWhile hj2max
      rw [hc] at this
      exact this c (List.mem_singleton.mpr rfl)
    -- destructure the remaining chunk list to reach chunks 9 and 11
    cases hfa4 with | cons hlit4 hfa5 =>
    rename_i ccol cs5
    cases hfa5 with | cons hsp5 hfa6 =>
    rename_i csp2 cs6
    cases hfa6 with | cons hopt6 hfa7 =>
    rename_i copt cs7
    cases hfa7 with | cons hlit7 hfa8 =>
    rename_i cst cs8
    cases hfa8 with | cons hsp8 hfa9 =>
    rename_i csp3 cs9
    cases hfa9 with | cons hsb9 hfa10 =>
    rename_i csb cs10
    cases hfa10 with | cons hlit10 hfa11 =>
    rename_i ccom cs11
    cases hfa11 with | cons hstar11 hfa12 =>
    rename_i crest cs12
    cases hfa12
    obtain ⟨hsbne, hsball⟩ := hsb9
    subst hchunks hcs1 hcs2
    cases h
    refine ⟨s1.take j1, c, csb, crest, ?_, ?_, take_of_le_takeWhile hj1max, hcdig, ?_,
      hsbne, hsball, ?_, ?_, ?_⟩
    · simp only [List.take, List.flatten]
      rw [hc]
      simp
    · intro he
      have := congrArg List.length he
      simp only [List.length_take, List.length_nil] at this
      have h2 : j1 ≤ s1.length := by
        have := (List.takeWhile_sublist (l := s1) isWordRx).length_le
        omega
      omega
    · rw [hc]
      rfl
    · rfl
    · rfl
    · intro t ht
      exact splitWhitespace_spec _ t (by simpa using ht)

/-- Claim C3 (amended): the designation of a parsed partition line is the
value of the single final digit of the device path, not of the whole maximal
trailing digit run — the greedy `\w+` group of the pattern absorbs every
digit but the last one. -/

theorem claim_C3 (line : List Char) (p : Partition)
    (h : parse_sfdisk_partition_line line = some p) :
    ∃ c : Char, isDigitRx c = true ∧ p.name.getLast? = some c ∧
      p.designation = c.toNat - 48 := by
  obtain ⟨w, c, sb, rest, hname, _, _, hcdig, hdes, _⟩ := parse_partition_shape h
  refine ⟨c, hcdig, ?_, ?_⟩
  · rw [hname, show strL "/dev/" ++ w ++ [c] = (strL "/dev/" ++ w) ++ [c] by simp]
    exact List.getLast?_concat _
  · rw [hdes]
    simp [natOfDigits]

/-- Witness for C3 applied at the line `/dev/sda12 : start= 4, x`. -/

theorem claim_C3_witness :
    ∃ c : Char, isDigitRx c = true ∧ (strL "/dev/sda12").getLast? = some c ∧
      (2 : Nat) = c.toNat - 48 :=
  claim_C3 (strL "/dev/sda12 : start= 4, x")
    { designation := 2, start_block := 4, name := strL "/dev/sda12",
      extras := [strL "x"] } rfl

/-- Counterexample to C3 as stated: the line with path `/dev/sda12` parses
with designation 2, not 12. -/

theorem claim_C3_counterexample :
    (parse_sfdisk_partition_line (strL "/dev/sda12 : start= 4, x")).map
      Partition.designation = some 2 ∧ (2 : Nat) ≠ 12 :=
  ⟨rfl, by decide⟩

/-! ### The line scan of parse_sfdisk_full_disk -/

/-- The device name remembered by the scan: the capture of the last
non-partition line that is a device line. -/

theorem scan_headerLines :
    ∀ (ls : List (List Char)) (st : ScanState),
      (ls.foldl scanStep st).headerLines =
        st.headerLines ++ ls.filter (fun l => !(is_sfdisk_partition_line l)) := by
  intro ls
  induction ls with
  | nil => intro st; simp
  | cons l ls' ih =>
    intro st
    rw [List.foldl_cons, ih]
    unfold scanStep
    cases hp : parse_sfdisk_partition_line l with
    | some part =>
      rw [List.filter_cons_of_neg (by simp [is_sfdisk_partition_line, hp])]
    | none =>
      rw [List.filter_cons_of_pos (by simp [is_sfdisk_partition_line, hp])]
      cases hd : parse_sfdisk_device_name_line l <;> simp

theorem scan_partitions :
    ∀ (ls : List (List Char)) (st : ScanState),
      (ls.foldl scanStep st).partitions =
        st.partitions ++ ls.filterMap parse_sfdisk_partition_line := by
  intro ls
  induction ls with
  | nil => intro st; simp
  | cons l ls' ih =>
    intro st
    rw [List.foldl_cons, ih]
    unfold scanStep
    cases hp : parse_sfdisk_partition_line l with
    | some part => simp [List.filterMap_cons, hp]
    | none =>
      rw [List.filterMap_cons_none hp]
      cases hd : parse_sfdisk_device_name_line l <;> simp

theorem devOf_cons (l : List Char) (ls : List (List Char)) :
    devOf (l :: ls) =
      match devOf ls with
      | some d => some d
      | none =>
        match parse_sfdisk_partition_line l with
        | some _ => none
        | none => parse_sfdisk_device_name_line l := rfl

theorem scan_deviceName :
    ∀ (ls : List (List Char)) (st : ScanState),
      (ls.foldl scanStep st).deviceName =
        match devOf ls with
        | some d => some d
        | none => st.deviceName := by
  intro ls
  induction ls with
  | nil => intro st; simp [devOf]
  | cons l ls' ih =>
    intro st
    rw [List.foldl_cons, ih, devOf_cons]
    unfold scanStep
    cases hd : devOf ls' with
    | some d =>
      cases hp : parse_sfdisk_partition_line l with
      | some part => simp
      | none => cases hdev : parse_sfdisk_device_name_line l <;> simp
    | none =>
      cases hp : parse_sfdisk_partition_line l with
      | some part => simp
      | none => cases hdev : parse_sfdisk_device_name_line l <;> simp

theorem devOf_append_of_none {ys : List (List Char)} (hys : devOf ys = none) :
    ∀ xs, devOf (xs ++ ys) = devOf xs := by
  intro xs
  induction xs with
  | nil => simpa using hys
  | cons x xs' ih =>
    rw [List.cons_append, devOf_cons, devOf_cons, ih]

theorem devOf_of_partitions {ys : List (List Char)}
    (h : ∀ l ∈ ys, (parse_sfdisk_partition_line l).isSome) : devOf ys = none := by
  induction ys with
  | nil => rfl
  | cons y ys' ih =>
    rw [devOf_cons, ih (fun l hl => h l (List.mem_cons_of_mem y hl))]
    cases hp : parse_sfdisk_partition_line y with
    | some _ => rfl
    | none =>
      have := h y (List.mem_cons_self y ys')
      rw [hp] at this
      exact Bool.noConfusion this

/-- Inversion of a successful full-disk parse in terms of the scan. -/

theorem parse_full_disk_inv {ord : List LinuxBlockDevice} {input : List Char} {d : Disk}
    (h : parse_sfdisk_full_disk ord input = .ok d) :
    devOf (linesOf input) = some d.name ∧
    linux_blk_name ord d.name = some d.linux_block_device ∧
    d.header_lines = (linesOf input).filter (fun l => !(is_sfdisk_partition_line l)) ∧
    d.partitions = (linesOf input).filterMap parse_sfdisk_partition_line ∧
    d.header_lines ≠ [] := by
  unfold parse_sfdisk_full_disk assembleDisk at h
  rw [scan_deviceName] at h
  cases hdev : devOf (linesOf input) with
  | none => rw [hdev] at h; exact Except.noConfusion h
  | some dn =>
    rw [hdev] at h
    simp only at h
    by_cases hh : (((linesOf input).foldl scanStep ⟨none, [], []⟩).headerLines).isEmpty
    · rw [if_pos hh] at h; exact Except.noConfusion h
    · rw [if_neg hh] at h
      unfold Disk.new at h
      cases hblk : linux_blk_name ord dn with
      | none => rw [hblk] at h; exact Except.noConfusion h
      | some fam =>
        rw [hblk] at h
        injection h with h
        subst h
        refine ⟨rfl, hblk, ?_, ?_, ?_⟩
        · rw [scan_headerLines]
          rfl
        · rw [scan_partitions]
          rfl
        · have hne : ((linesOf input).foldl scanStep ⟨none, [], []⟩).headerLines ≠ [] := by
            intro he
            apply hh
            rw [List.isEmpty_iff]
            exact he
          exact hne

/-- Claim C5 (amended): when a dump contains several device lines, the scan
remembers the capture of the last one in line order (each device line
overwrites the remembered name), and the disk's name and family derive from
that last occurrence — not from the first. -/

theorem claim_C5 (ord : List LinuxBlockDevice) (input : List Char) (d : Disk)
    (h : parse_sfdisk_full_disk ord input = .ok d) :
    devOf (linesOf input) = some d.name ∧
    linux_blk_name ord d.name = some d.linux_block_device :=
  ⟨(parse_full_disk_inv h).1, (parse_full_disk_inv h).2.1⟩

/-- The disk parsed from the C5 counterexample dump. -/

theorem claim_C5_counterexample :
    parse_sfdisk_full_disk scsiFirstOrder
      (strL "device: /dev/sda\ndevice: /dev/vda\n") = .ok c5Disk ∧
    parse_sfdisk_device_name_line (strL "device: /dev/sda") = some (strL "/dev/sda") ∧
    c5Disk.name = strL "/dev/vda" ∧
    strL "/dev/vda" ≠ strL "/dev/sda" :=
  ⟨rfl, rfl, rfl, by decide⟩

/-- Witness for C5 at the two-device-line dump. -/

theorem claim_C5_witness :
    devOf (linesOf (strL "device: /dev/sda\ndevice: /dev/vda\n")) = some c5Disk.name ∧
    linux_blk_name scsiFirstOrder c5Disk.name = some c5Disk.linux_block_device :=
  claim_C5 scsiFirstOrder (strL "device: /dev/sda\ndevice: /dev/vda\n") c5Disk rfl

/-! ### Re-parsing a displayed partition line -/

theorem isWordRx_ne_nl {c : Char} (h : isWordRx c = true) : c ≠ '\n' :=
  not_space_ne_nl (isWordRx_not_space h)

theorem matchSeq_plus_none {p : Char → Bool} {as : List RAtom} {s : List Char}
    (h : s.takeWhile p = []) : matchSeq (.plus p :: as) s = none := by
  rw [matchSeq_plus, h]
  rfl

/-- A partition obtained from a successful line parse re-parses from its
`Display` rendering to exactly the same value. -/

theorem reparse_display {line : List Char} {p : Partition}
    (h : parse_sfdisk_partition_line line = some p) :
    parse_sfdisk_partition_line (Partition.display p) = some p := by
  obtain ⟨w, c, sb, rest, hname, hwne, hwall, hcdig, hdes, hsbne, hsball, hsb, hex,
    hexprops⟩ := parse_partition_shape h
  have hnumne := numChars_ne_nil p.start_block
  have hnumdig := numChars_all_digit p.start_block
  -- the tail of the display line, decomposed one pattern atom at a time
  have m11 : matchSeq [.star (fun c => c != '\n')]
      ([' '] ++ joinSpace p.extras) = some ([[' '] ++ joinSpace p.extras], []) := by
    refine matchSeq_star_all ?_
    intro x hx
    rcases List.mem_append.mp hx with hx | hx
    · rcases List.mem_singleton.mp hx with rfl
      decide
    · rcases joinSpace_chars hx with ⟨t, ht, hxt⟩ | rfl
      · have := (hexprops t ht).2 x hxt
        simpa using not_space_ne_nl this
      · decide
  have m10 : matchSeq [.lit (strL ","), .star (fun c => c != '\n')]
      (strL "," ++ ([' '] ++ joinSpace p.extras)) =
      some ([strL ","] ++ [[' '] ++ joinSpace p.extras], []) := matchSeq_lit_pre m11
  have m9 : matchSeq [.plus isDigitRx, .lit (strL ","), .star (fun c => c != '\n')]
      (numChars p.start_block ++ (strL "," ++ ([' '] ++ joinSpace p.extras))) =
      some (numChars p.start_block :: ([strL ","] ++ [[' '] ++ joinSpace p.extras]), []) :=
    matchSeq_plus_run hnumne hnumdig
      (by
        show List.takeWhile isDigitRx (',' :: ([' '] ++ joinSpace p.extras)) = []
        rw [List.takeWhile_cons_of_neg (by decide)]) m10
  have m8 : matchSeq [.plus isSpaceRx, .plus isDigitRx, .lit (strL ","),
      .star (fun c => c != '\n')]
      ([' '] ++ (numChars p.start_block ++ (strL "," ++ ([' '] ++ joinSpace p.extras)))) =
      some ([' '] :: numChars p.start_block ::
        ([strL ","] ++ [[' '] ++ joinSpace p.extras]), []) :=
    matchSeq_plus_run (by simp) (by intro x hx; rcases List.mem_singleton.mp hx with rfl; decide)
      (by
        cases hnc : numChars p.start_block with
        | nil => exact absurd hnc hnumne
        | cons c0 tl =>
          have hc0 : isDigitRx c0 = true := by
            rw [hnc] at hnumdig
            exact hnumdig c0 (List.mem_cons_self _ _)
          rw [List.cons_append, List.takeWhile_cons_of_neg
            (by simp [isDigitRx_not_space hc0])]) m9
  have m7 : matchSeq [.lit (strL "start="), .plus isSpaceRx, .plus isDigitRx,
      .lit (strL ","), .star (fun c => c != '\n')]
      (strL "start=" ++ ([' '] ++ (numChars p.start_block ++
        (strL "," ++ ([' '] ++ joinSpace p.extras))))) =
      some (strL "start=" :: [' '] :: numChars p.start_block ::
        ([strL ","] ++ [[' '] ++ joinSpace p.extras]), []) := matchSeq_lit_pre m8
  have m6 : matchSeq [.opt ':', .lit (strL "start="), .plus isSpaceRx, .plus isDigitRx,
      .lit (strL ","), .star (fun c => c != '\n')]
      (strL "start=" ++ ([' '] ++ (numChars p.start_block ++
        (strL "," ++ ([' '] ++ joinSpace p.extras))))) =
      some ([] :: strL "start=" :: [' '] :: numChars p.start_block ::
        ([strL ","] ++ [[' '] ++ joinSpace p.extras]), []) := by
    refine matchSeq_opt_skip ?_ m7
    intro c' s' he
    have : c' = 's' := by
      have : strL "start=" ++ ([' '] ++ (numChars p.start_block ++
          (strL "," ++ ([' '] ++ joinSpace p.extras)))) =
          's' :: (strL "tart=" ++ ([' '] ++ (numChars p.start_block ++
            (strL "," ++ ([' '] ++ joinSpace p.extras))))) := rfl
      rw [this] at he
      exact (List.cons.injEq _ _ _ _ ▸ he).1.symm
    subst this
    decide
  have m5 : matchSeq [.plus isSpaceRx, .opt ':', .lit (strL "start="), .plus isSpaceRx,
      .plus isDigitRx, .lit (strL ","), .star (fun c => c != '\n')]
      ([' '] ++ (strL "start=" ++ ([' '] ++ (numChars p.start_block ++
        (strL "," ++ ([' '] ++ joinSpace p.extras)))))) =
      some ([' '] :: [] :: strL "start=" :: [' '] :: numChars p.start_block ::
        ([strL ","] ++ [[' '] ++ joinSpace p.extras]), []) :=
    matchSeq_plus_run (by simp) (by intro x hx; rcases List.mem_singleton.mp hx with rfl; decide)
      (by
        show List.takeWhile isSpaceRx ('s' :: _) = []
        rw [List.takeWhile_cons_of_neg (by decide)]) m6
  have m4 : matchSeq [.lit (strL ":"), .plus isSpaceRx, .opt ':', .lit (strL "start="),
      .plus isSpaceRx, .plus isDigitRx, .lit (strL ","), .star (fun c => c != '\n')]
      (strL ":" ++ ([' '] ++ (strL "start=" ++ ([' '] ++ (numChars p.start_block ++
        (strL "," ++ ([' '] ++ joinSpace p.extras))))))) =
      some (strL ":" :: [' '] :: [] :: strL "start=" :: [' '] :: numChars p.start_block ::
        ([strL ","] ++ [[' '] ++ joinSpace p.extras]), []) := matchSeq_lit_pre m5
  have m3 : matchSeq [.plus isSpaceRx, .lit (strL ":"), .plus isSpaceRx, .opt ':',
      .lit (strL "start="), .plus isSpaceRx, .plus isDigitRx, .lit (strL ","),
      .star (fun c => c != '\n')]
      ([' '] ++ (strL ":" ++ ([' '] ++ (strL "start=" ++ ([' '] ++
        (numChars p.start_block ++ (strL "," ++ ([' '] ++ joinSpace p.extras)))))))) =
      some ([' '] :: strL ":" :: [' '] :: [] :: strL "start=" :: [' '] ::
        numChars p.start_block :: ([strL ","] ++ [[' '] ++ joinSpace p.extras]), []) :=
    matchSeq_plus_run (by simp) (by intro x hx; rcases List.mem_singleton.mp hx with rfl; decide)
      (by
        show List.takeWhile isSpaceRx (':' :: _) = []
        rw [List.takeWhile_cons_of_neg (by decide)]) m4
  have m2 : matchSeq [.plus isDigitRx, .plus isSpaceRx, .lit (strL ":"), .plus isSpaceRx,
      .opt ':', .lit (strL "start="), .plus isSpaceRx, .plus isDigitRx, .lit (strL ","),
      .star (fun c => c != '\n')]
      ([c] ++ ([' '] ++ (strL ":" ++ ([' '] ++ (strL "start=" ++ ([' '] ++
        (numChars p.start_block ++ (strL "," ++ ([' '] ++ joinSpace p.extras))))))))) =
      some ([c] :: [' '] :: strL ":" :: [' '] :: [] :: strL "start=" :: [' '] ::
        numChars p.start_block :: ([strL ","] ++ [[' '] ++ joinSpace p.extras]), []) :=
    matchSeq_plus_run (by simp)
      (by intro x hx; rcases List.mem_singleton.mp hx with rfl; exact hcdig)
      (by
        show List.takeWhile isDigitRx (' ' :: _) = []
        rw [List.takeWhile_cons_of_neg (by decide)]) m3
  have m1 : matchSeq [.plus isWordRx, .plus isDigitRx, .plus isSpaceRx, .lit (strL ":"),
      .plus isSpaceRx, .opt ':', .lit (strL "start="), .plus isSpaceRx, .plus isDigitRx,
      .lit (strL ","), .star (fun c => c != '\n')]
      (w ++ [c] ++ ([' '] ++ (strL ":" ++ ([' '] ++ (strL "start=" ++ ([' '] ++
        (numChars p.start_block ++ (strL "," ++ ([' '] ++ joinSpace p.extras))))))))) =
      some (w :: [c] :: [' '] :: strL ":" :: [' '] :: [] :: strL "start=" :: [' '] ::
        numChars p.start_block :: ([strL ","] ++ [[' '] ++ joinSpace p.extras]), []) := by
    refine matchSeq_plus_back_one hwne ?_ ?_ ?_ m2
    · intro x hx
      rcases List.mem_append.mp hx with hx | hx
      · exact hwall x hx
      · rcases List.mem_singleton.mp hx with rfl
        exact isDigitRx_isWordRx hcdig
    · show List.takeWhile isWordRx (' ' :: _) = []
      rw [List.takeWhile_cons_of_neg (by decide)]
    · refine matchSeq_plus_none ?_
      show List.takeWhile isDigitRx (' ' :: _) = []
      rw [List.takeWhile_cons_of_neg (by decide)]
  have m0 : matchSeq SFDISK_PARTITION_LINE_PATTERN
      (strL "/dev/" ++ (w ++ [c] ++ ([' '] ++ (strL ":" ++ ([' '] ++ (strL "start=" ++
        ([' '] ++ (numChars p.start_block ++ (strL "," ++
          ([' '] ++ joinSpace p.extras)))))))))) =
      some (strL "/dev/" :: w :: [c] :: [' '] :: strL ":" :: [' '] :: [] ::
        strL "start=" :: [' '] :: numChars p.start_block ::
        ([strL ","] ++ [[' '] ++ joinSpace p.extras]), []) :=
    matchSeq_lit_pre (t := strL "/dev/") m1
  -- the displayed line is exactly the input of `m0`
  have hdisp : Partition.display p = strL "/dev/" ++ (w ++ [c] ++ ([' '] ++ (strL ":" ++
      ([' '] ++ (strL "start=" ++ ([' '] ++ (numChars p.start_block ++
        (strL "," ++ ([' '] ++ joinSpace p.extras))))))))) := by
    unfold Partition.display
    rw [hname]
    have e1 : ∀ X : List Char, strL " : start= " ++ X =
        [' '] ++ (strL ":" ++ ([' '] ++ (strL "start=" ++ ([' '] ++ X)))) := fun X => rfl
    have e2 : ∀ X : List Char, strL ", " ++ X = strL "," ++ ([' '] ++ X) := fun X => rfl
    simp only [List.append_assoc, e1, e2]
  rw [hdisp]
  unfold parse_sfdisk_partition_line
  rw [findRx_at_zero m0]
  simp only [Option.map_some']
  congr 1
  have hx1 : (List.take 3 (strL "/dev/" :: w :: [c] :: [' '] :: strL ":" :: [' '] :: [] ::
      strL "start=" :: [' '] :: numChars p.start_block ::
      ([strL ","] ++ [[' '] ++ joinSpace p.extras]))).flatten = p.name := by
    rw [hname]
    simp
  have hx2 : natOfDigits ((strL "/dev/" :: w :: [c] :: [' '] :: strL ":" :: [' '] :: [] ::
      strL "start=" :: [' '] :: numChars p.start_block ::
      ([strL ","] ++ [[' '] ++ joinSpace p.extras])).getD 2 []) = p.designation := by
    rw [hdes]
    rfl
  have hx3 : natOfDigits ((strL "/dev/" :: w :: [c] :: [' '] :: strL ":" :: [' '] :: [] ::
      strL "start=" :: [' '] :: numChars p.start_block ::
      ([strL ","] ++ [[' '] ++ joinSpace p.extras])).getD 9 []) = p.start_block := by
    show natOfDigits (numChars p.start_block) = p.start_block
    exact natOfDigits_numChars _
  have hx4 : splitWhitespace ((strL "/dev/" :: w :: [c] :: [' '] :: strL ":" :: [' '] :: [] ::
      strL "start=" :: [' '] :: numChars p.start_block ::
      ([strL ","] ++ [[' '] ++ joinSpace p.extras])).getD 11 []) = p.extras := by
    show splitWhitespace ([' '] ++ joinSpace p.extras) = p.extras
    exact splitWhitespace_space_join hexprops
  rw [hx1, hx2, hx3, hx4]

theorem getLast?_ne_cr_of_all {l : List Char} (h : ∀ x ∈ l, x ≠ '\r') :
    l.getLast? ≠ some '\r' := by
  intro habs
  obtain ⟨hne, heq⟩ := List.mem_getLast?_eq_getLast (Option.mem_def.mpr habs)
  exact h _ (heq ▸ List.getLast_mem hne) rfl

/-- Every character of a displayed partition line (for a partition that came
from a successful line parse) is neither a newline nor a carriage return. -/

theorem display_chars {line : List Char} {p : Partition}
    (h : parse_sfdisk_partition_line line = some p) :
    ∀ x ∈ Partition.display p, x ≠ '\n' ∧ x ≠ '\r' := by
  obtain ⟨w, c, sb, rest, hname, hwne, hwall, hcdig, _, _, _, _, _, hexprops⟩ :=
    parse_partition_shape h
  intro x hx
  unfold Partition.display at hx
  rw [hname] at hx
  simp only [List.append_assoc, List.mem_append, List.mem_singleton] at hx
  rcases hx with hx | hx | hx | hx | hx | hx | hx
  · have hd : ∀ y ∈ strL "/dev/", y ≠ '\n' ∧ y ≠ '\r' := by decide
    exact hd x hx
  · have hsp := isWordRx_not_space (hwall x hx)
    exact ⟨not_space_ne_nl hsp, not_space_ne_cr hsp⟩
  · subst hx
    exact ⟨isDigitRx_ne_nl hcdig, isDigitRx_ne_cr hcdig⟩
  · have hd : ∀ y ∈ strL " : start= ", y ≠ '\n' ∧ y ≠ '\r' := by decide
    exact hd x hx
  · have hdig := numChars_all_digit p.start_block x hx
    exact ⟨isDigitRx_ne_nl hdig, isDigitRx_ne_cr hdig⟩
  · have hd : ∀ y ∈ strL ", ", y ≠ '\n' ∧ y ≠ '\r' := by decide
    exact hd x hx
  · rcases joinSpace_chars hx with ⟨t, ht, hxt⟩ | rfl
    · have hsp := (hexprops t ht).2 x hxt
      exact ⟨not_space_ne_nl hsp, not_space_ne_cr hsp⟩
    · exact ⟨by decide, by decide⟩

theorem filter_eq_nil_of {α : Type} {q : α → Bool} :
    ∀ {l : List α}, (∀ x ∈ l, q x = false) → l.filter q = []
  | [], _ => rfl
  | x :: xs, h => by
    rw [List.filter_cons_of_neg (by simp [h x (List.mem_cons_self x xs)])]
    exact filter_eq_nil_of (fun y hy => h y (List.mem_cons_of_mem x hy))

theorem filterMap_eq_nil_of {α β : Type} {f : α → Option β} :
    ∀ {l : List α}, (∀ x ∈ l, f x = none) → l.filterMap f = []
  | [], _ => rfl
  | x :: xs, h => by
    rw [List.filterMap_cons_none (h x (List.mem_cons_self x xs))]
    exact filterMap_eq_nil_of (fun y hy => h y (List.mem_cons_of_mem x hy))

theorem filterMap_eq_self_of {α : Type} {f : α → Option α} :
    ∀ {l : List α}, (∀ x ∈ l, f x = some x) → l.filterMap f = l
  | [], _ => rfl
  | x :: xs, h => by
    rw [List.filterMap_cons_some (h x (List.mem_cons_self x xs))]
    rw [filterMap_eq_self_of (fun y hy => h y (List.mem_cons_of_mem x hy))]

/-- Dropping the lines recognized as partition lines does not change the
remembered device name: partition lines never contribute a device capture. -/

theorem devOf_filter_not_part :
    ∀ ls : List (List Char),
      devOf (ls.filter (fun l => !(is_sfdisk_partition_line l))) = devOf ls := by
  intro ls
  induction ls with
  | nil => rfl
  | cons l ls' ih =>
    rw [devOf_cons]
    cases hp : parse_sfdisk_partition_line l with
    | some part =>
      rw [List.filter_cons_of_neg (by simp [is_sfdisk_partition_line, hp])]
      rw [ih]
      cases hd : devOf ls' with
      | some d => rfl
      | none => rfl
    | none =>
      rw [List.filter_cons_of_pos (by simp [is_sfdisk_partition_line, hp])]
      rw [devOf_cons, ih, hp]

theorem assembleDisk_ok {ord : List LinuxBlockDevice} {n : List Char}
    {H : List (List Char)} {P : List Partition} {fam : LinuxBlockDevice}
    (h3 : H ≠ []) (h5 : linux_blk_name ord n = some fam) :
    assembleDisk ord ⟨some n, H, P⟩ = .ok ⟨n, fam, H, P⟩ := by
  show (if H.isEmpty then (Except.error (strL "missing header lines") : Except (List Char) Disk)
      else Disk.new ord n H P) = Except.ok ⟨n, fam, H, P⟩
  rw [if_neg (by simp [List.isEmpty_iff, h3])]
  unfold Disk.new
  rw [h5]

/-- Claim C2 (amended): the round trip holds for every well-formed dump none
of whose lines ends in a carriage return.  (Without that proviso it fails:
`lines()` strips a `\r` preceding each line break, so a header line kept with
a trailing `\r` re-parses differently; see the counterexample.) -/

theorem claim_C2 (ord : List LinuxBlockDevice) (D : List Char) (d : Disk)
    (hcr : ∀ l ∈ linesOf D, l.getLast? ≠ some '\r')
    (h : parse_sfdisk_full_disk ord D = .ok d) :
    parse_sfdisk_full_disk ord (print_disk d) = .ok d := by
  obtain ⟨hdev, hblk, hhead, hparts, hne⟩ := parse_full_disk_inv h
  have hmem : ∀ p ∈ d.partitions, ∃ l, parse_sfdisk_partition_line l = some p := by
    intro p hp
    rw [hparts] at hp
    obtain ⟨l, _, hl⟩ := List.mem_filterMap.mp hp
    exact ⟨l, hl⟩
  have hheadmem : ∀ l ∈ d.header_lines, is_sfdisk_partition_line l = false := by
    intro l hl
    rw [hhead] at hl
    have := (List.mem_filter.mp hl).2
    simpa using this
  have hheadin : ∀ l ∈ d.header_lines, l ∈ linesOf D := by
    intro l hl
    rw [hhead] at hl
    exact (List.mem_filter.mp hl).1
  have hlines : linesOf (print_disk d) =
      d.header_lines ++ d.partitions.map Partition.display := by
    unfold print_disk
    refine linesOf_flatten ?_
    intro l hl
    rcases List.mem_append.mp hl with hl | hl
    · exact ⟨linesOf_no_nl l (hheadin l hl), hcr l (hheadin l hl)⟩
    · obtain ⟨p, hp, rfl⟩ := List.mem_map.mp hl
      obtain ⟨line, hline⟩ := hmem p hp
      have hch := display_chars hline
      exact ⟨fun c hc => (hch c hc).1, getLast?_ne_cr_of_all (fun c hc => (hch c hc).2)⟩
  have hdispsome : ∀ l ∈ d.partitions.map Partition.display,
      (parse_sfdisk_partition_line l).isSome = true := by
    intro l hl
    obtain ⟨p, hp, rfl⟩ := List.mem_map.mp hl
    obtain ⟨line, hline⟩ := hmem p hp
    simp [reparse_display hline]
  have hstdev : ((d.header_lines ++ d.partitions.map Partition.display).foldl scanStep
      (⟨none, [], []⟩ : ScanState)).deviceName = some d.name := by
    rw [scan_deviceName]
    have hnone : devOf (d.partitions.map Partition.display) = none :=
      devOf_of_partitions hdispsome
    rw [devOf_append_of_none hnone, hhead, devOf_filter_not_part, hdev]
  have hsthead : ((d.header_lines ++ d.partitions.map Partition.display).foldl scanStep
      (⟨none, [], []⟩ : ScanState)).headerLines = d.header_lines := by
    rw [scan_headerLines, List.filter_append]
    have h1 : d.header_lines.filter (fun l => !(is_sfdisk_partition_line l)) =
        d.header_lines :=
      List.filter_eq_self.mpr (fun l hl => by simp [hheadmem l hl])
    have h2 : (d.partitions.map Partition.display).filter
        (fun l => !(is_sfdisk_partition_line l)) = [] := by
      refine filter_eq_nil_of ?_
      intro l hl
      have := hdispsome l hl
      simp [is_sfdisk_partition_line, this]
    rw [h1, h2, List.append_nil]
    rfl
  have hstparts : ((d.header_lines ++ d.partitions.map Partition.display).foldl scanStep
      (⟨none, [], []⟩ : ScanState)).partitions = d.partitions := by
    rw [scan_partitions, List.filterMap_append]
    have h1 : d.header_lines.filterMap parse_sfdisk_partition_line = [] := by
      refine filterMap_eq_nil_of ?_
      intro l hl
      have := hheadmem l hl
      unfold is_sfdisk_partition_line at this
      cases hpl : parse_sfdisk_partition_line l with
      | none => rfl
      | some q => rw [hpl] at this; exact Bool.noConfusion this
    have h2 : (d.partitions.map Partition.display).filterMap
        parse_sfdisk_partition_line = d.partitions := by
      rw [List.filterMap_map]
      refine filterMap_eq_self_of ?_
      intro p hp
      obtain ⟨line, hline⟩ := hmem p hp
      exact reparse_display hline
    rw [h1, h2]
    rfl
  unfold parse_sfdisk_full_disk
  rw [hlines]
  cases hfold : ((d.header_lines ++ d.partitions.map Partition.display).foldl scanStep
      (⟨none, [], []⟩ : ScanState)) with
  | mk a b c =>
    rw [hfold] at hstdev hsthead hstparts
    change a = some d.name at hstdev
    change b = d.header_lines at hsthead
    change c = d.partitions at hstparts
    subst hstdev
    subst hsthead
    subst hstparts
    exact assembleDisk_ok hne hblk

/-- The sfdisk dump of the C2 counterexample: its device line ends in a
carriage return (the dump uses `\x5cr\x5cn` line endings). -/

theorem claim_C2_counterexample :
    parse_sfdisk_full_disk scsiFirstOrder c2Dump = .ok c2Disk ∧
    parse_sfdisk_full_disk scsiFirstOrder (print_disk c2Disk) = .ok c2DiskB ∧
    c2DiskB ≠ c2Disk := ⟨rfl, rfl, by decide⟩

/-- A clean dump (no carriage returns) for the C2 witness. -/

theorem claim_C2_witness :
    (∀ l ∈ linesOf c2CleanDump, l.getLast? ≠ some '\r') ∧
    parse_sfdisk_full_disk scsiFirstOrder (print_disk c2CleanDisk) = .ok c2CleanDisk :=
  ⟨by decide, claim_C2 scsiFirstOrder c2CleanDump c2CleanDisk (by decide) rfl⟩

